import Mathlib

/-!
Shallow embedding of the plex-wrapped core (generate_wrapped.py,
wrapped_analytics.py, definitions.py) and proofs about the frozen claims.

Modelling conventions:
* Python dicts of history entries become the `Event` structure; a field read
  with `.get(k)` is an `Option`, a read with `.get(k, 0)` is a plain number.
* Python dicts used as accumulators (insertion ordered) become association
  lists `List (κ × ν)` updated in place, preserving first-insertion order.
* Python sets are modelled as duplicate-free lists in first-encounter order;
  every property proved about them is insensitive to iteration order
  (Python set iteration order is unspecified).
* Machine arithmetic: Python ints are unbounded, so `Int`/`Nat` are exact;
  float percentages are modelled as exact rationals `ℚ`.
* `list.sort` / `sorted` (stable) are modelled with `List.insertionSort`,
  which is also stable; no proved property depends on tie order.
-/

namespace PlexWrapped

/-- One watch-history record as returned by Tautulli and consumed by
generate_wrapped.py / wrapped_analytics.py.  Fields read via `.get(key)`
are `Option`; `play_duration` is read via `.get('play_duration', 0)` and
`date` via `.get('date', 0)`, so they carry the default directly. -/
structure Event where
  friendly_name : Option String := none
  user_id : Option Nat := none
  media_type : Option String := none
  rating_key : Option Nat := none
  grandparent_rating_key : Option Nat := none
  grandparent_title : Option String := none
  title : Option String := none
  full_title : Option String := none
  play_duration : Int := 0
  date : Nat := 0
  media_index : Option Nat := none
  parent_media_index : Option Nat := none
deriving Repr, DecidableEq

/-- Python truthiness of an optional string (None and the empty string are
falsy). -/
def strTruthy : Option String → Bool
  | none => false
  | some s => s ≠ ""

/-- Python truthiness of an optional numeric key (None and 0 are falsy). -/
def keyTruthy : Option Nat → Bool
  | none => false
  | some k => k ≠ 0

/-- Python `a or b` on two optional keys: `a` when truthy, else `b`. -/
def pyOrKey (a b : Option Nat) : Option Nat :=
  if keyTruthy a then a else b

/-- Python `a or b` on two optional strings: `a` when truthy, else `b`. -/
def pyOrStr (a b : Option String) : Option String :=
  if strTruthy a then a else b

/-- Stable sort, ascending in `key` (models Python `sorted(l, key=key)`). -/
def sortByAsc {α β : Type} [LinearOrder β] (key : α → β) (l : List α) : List α :=
  l.insertionSort (fun a b => key a ≤ key b)

/-- Stable sort, descending in `key` (models Python
`l.sort(key=key, reverse=True)`). -/
def sortByDesc {α β : Type} [LinearOrder β] (key : α → β) (l : List α) : List α :=
  l.insertionSort (fun a b => key b ≤ key a)

instance {α β : Type} [LinearOrder β] (key : α → β) :
    DecidableRel (fun a b : α => key a ≤ key b) :=
  fun a b => inferInstanceAs (Decidable (key a ≤ key b))

instance {α β : Type} [LinearOrder β] (key : α → β) :
    DecidableRel (fun a b : α => key b ≤ key a) :=
  fun a b => inferInstanceAs (Decidable (key b ≤ key a))

instance {α β : Type} [LinearOrder β] (key : α → β) :
    IsTotal α (fun a b : α => key a ≤ key b) :=
  ⟨fun a b => le_total (key a) (key b)⟩

instance {α β : Type} [LinearOrder β] (key : α → β) :
    IsTotal α (fun a b : α => key b ≤ key a) :=
  ⟨fun a b => le_total (key b) (key a)⟩

instance {α β : Type} [LinearOrder β] (key : α → β) :
    IsTrans α (fun a b : α => key a ≤ key b) :=
  ⟨fun _ _ _ h₁ h₂ => le_trans h₁ h₂⟩

instance {α β : Type} [LinearOrder β] (key : α → β) :
    IsTrans α (fun a b : α => key b ≤ key a) :=
  ⟨fun _ _ _ h₁ h₂ => le_trans h₂ h₁⟩

/-! ### definitions.py and the history fold of generate_wrapped.py -/

/-- definitions.py line 1: the tracked media-type set. -/
def tracked_media : List String := ["movie", "episode"]

/-- The filter applied at generate_wrapped.py line 69:
`if media_type in tracked_media and user:` (user truthiness: not None and
not the empty string). -/
def isCounted (e : Event) : Bool :=
  (match e.media_type with
   | some m => tracked_media.contains m
   | none => false)
  && strTruthy e.friendly_name

/-- Per-user accumulated seconds, generate_wrapped.py lines 76-81
(dict `{'movie': 0, 'episode': 0, 'total': 0}`). -/
structure StatDict where
  movie : Int := 0
  episode : Int := 0
  total : Int := 0
deriving Repr, DecidableEq

/-- One event folded into a `StatDict`:
`user_stats[user][media_type] += duration; user_stats[user]['total'] += duration`.
The caller guarantees `m ∈ {movie, episode}`. -/
def updateStat (m : String) (d : Int) (s : StatDict) : StatDict :=
  { movie := if m = "movie" then s.movie + d else s.movie
    episode := if m = "episode" then s.episode + d else s.episode
    total := s.total + d }

/-- Insertion-ordered dict update: create the entry with zeroed stats if the
user is absent, then apply `f` (generate_wrapped.py lines 76-77 plus the
`+=` on lines 80-81). -/
def updateAssoc (u : String) (f : StatDict → StatDict) :
    List (String × StatDict) → List (String × StatDict)
  | [] => [(u, f {})]
  | (v, s) :: rest =>
      if v = u then (v, f s) :: rest else (v, s) :: updateAssoc u f rest

/-- One history entry folded into `user_stats`
(generate_wrapped.py lines 64-81): entries failing the tracked/user filter
leave the accumulator unchanged. -/
def statStep (acc : List (String × StatDict)) (e : Event) :
    List (String × StatDict) :=
  if isCounted e then
    updateAssoc ((e.friendly_name).getD "")
      (updateStat ((e.media_type).getD "") e.play_duration) acc
  else acc

/-- The `user_stats` fold of generate_wrapped.py lines 64-81 applied to the
whole history list. -/
def userStats (events : List Event) : List (String × StatDict) :=
  events.foldl statStep []

/-- The events that pass the tracked-media-and-user filter (the events
appended to `user_history` at generate_wrapped.py line 70). -/
def filterTracked (events : List Event) : List Event :=
  events.filter isCounted

/-- `user_history[u]`: the counted events of user `u`, in input order
(generate_wrapped.py lines 60-70). -/
def userHistory (events : List Event) (u : String) : List Event :=
  events.filter (fun e => isCounted e && (e.friendly_name).getD "" == u)

/-! ### calculate_watch_streaks (wrapped_analytics.py lines 131-179) -/

/-- `datetime.fromtimestamp(ts).date()` bucketed to a day number; the
server-local clock is assumed UTC-equivalent (spec section 3), so a calendar
date is the epoch-seconds timestamp divided by 86400. -/
def dayOf (ts : Nat) : Nat := ts / 86400

/-- The sorted distinct activity dates:
`sorted_dates = sorted({fromtimestamp(item.get('date', 0)).date()})`. -/
def sortedDates (history : List Event) : List Nat :=
  sortByAsc id ((history.map (fun e => dayOf e.date)).dedup)

/-- Streak result of wrapped_analytics.py lines 131-179.  The Python dict on
the empty-input path omits the `total_active_days` key; its only consumer
(wrapped_html_generator.py line 377) reads it with `.get('total_active_days', 0)`,
so the omission is embedded as 0.  The display-only `streak_start`,
`streak_end` and `streak_dates` fields are not modelled. -/
structure StreakResult where
  longest_streak : Nat
  current_streak : Nat
  total_active_days : Nat
deriving Repr, DecidableEq

/-- The loop of wrapped_analytics.py lines 153-162 over the tail of the
sorted date list; state is `(longest_streak, current_streak)` and `prev` is
`sorted_dates[i-1]`.  The Python gap test `(d - prev).days == 1` becomes
`d - prev = 1` in `Nat`, which agrees with the signed difference on every
input the sorted distinct list can present. -/
def streakFold (prev longest current : Nat) : List Nat → Nat × Nat
  | [] => (longest, current)
  | d :: rest =>
      if d - prev = 1 then streakFold d longest (current + 1) rest
      else streakFold d (if current > longest then current else longest) 1 rest

/-- wrapped_analytics.py `calculate_watch_streaks`; `today` is
`datetime.now().date()` as a day number, passed explicitly because the code
reads the wall clock. -/
def calculate_watch_streaks (today : Nat) (history : List Event) : StreakResult :=
  if history.isEmpty then ⟨0, 0, 0⟩
  else
    match sortedDates history with
    | [] => ⟨0, 0, 0⟩
    | d :: rest =>
        let lc := streakFold d 1 1 rest
        let longest := if lc.2 > lc.1 then lc.2 else lc.1
        let lastDate := rest.getLastD d
        let ongoing := today - lastDate ≤ 1
        ⟨longest, if ongoing then lc.2 else 0, (d :: rest).length⟩

/-- Modelled from the claim's wording, not from the code: the length of the
longest run of consecutive calendar dates in a date list, where a gap of
exactly 1 day continues a run and any other gap breaks it; `current` is the
length of the run ending at `prev`. -/
def maxRunAux (prev current : Nat) : List Nat → Nat
  | [] => current
  | d :: rest =>
      if d = prev + 1 then maxRunAux d (current + 1) rest
      else max current (maxRunAux d 1 rest)

/-- Modelled from the claim's wording: longest run of consecutive dates. -/
def longestRun : List Nat → Nat
  | [] => 0
  | d :: rest => maxRunAux d 1 rest

/-- Modelled from the claim's wording: the length of the final run of
consecutive dates. -/
def lastRunAux (prev current : Nat) : List Nat → Nat
  | [] => current
  | d :: rest =>
      if d = prev + 1 then lastRunAux d (current + 1) rest
      else lastRunAux d 1 rest

/-- Modelled from the claim's wording: length of the last run. -/
def lastRun : List Nat → Nat
  | [] => 0
  | d :: rest => lastRunAux d 1 rest

/-! ### detect_binge_sessions (wrapped_analytics.py lines 181-238) -/

/-- The per-episode record appended at wrapped_analytics.py lines 190-195. -/
structure EpRec where
  date : Nat := 0
  title : Option String := none
  episode_index : Option Nat := none
  season : Option Nat := none
deriving Repr, DecidableEq, Inhabited

/-- A binge session (wrapped_analytics.py lines 218-223).  The Python dict
formats `session_episodes[0]['date']` for display; the embedding keeps the
raw epoch value. -/
structure BingeSession where
  show_title : String
  episode_count : Nat
  start_date : Nat
  episodes : List EpRec
deriving Repr, DecidableEq

/-- `defaultdict(list)` keyed by show title: append `v` to key `k`,
creating the key at the end on first use (insertion order). -/
def addToGroup (k : String) (v : EpRec) :
    List (String × List EpRec) → List (String × List EpRec)
  | [] => [(k, [v])]
  | (g, vs) :: rest =>
      if g = k then (g, vs ++ [v]) :: rest else (g, vs) :: addToGroup k v rest

/-- One history entry folded into `show_watches`
(wrapped_analytics.py lines 186-195). -/
def showStep (acc : List (String × List EpRec)) (e : Event) :
    List (String × List EpRec) :=
  if e.media_type = some "episode" ∧ strTruthy e.grandparent_title then
    addToGroup ((e.grandparent_title).getD "")
      ⟨e.date, e.full_title, e.media_index, e.parent_media_index⟩ acc
  else acc

/-- The grouping loop of wrapped_analytics.py lines 184-195: episodes only,
keyed by a truthy `grandparent_title`. -/
def showWatches (history : List Event) : List (String × List EpRec) :=
  history.foldl showStep []

/-- Build the emitted session dict (wrapped_analytics.py lines 218-223 and
227-233). -/
def mkSession (shw : String) (ses : List EpRec) : BingeSession :=
  ⟨shw, ses.length, (ses.headD default).date, ses⟩

/-- The scan of wrapped_analytics.py lines 207-233 over the date-sorted
episodes of one show: `ses` is the running `session_episodes` (nonempty);
a new episode within 28800 seconds of the most recent session episode
extends the session, otherwise the session is emitted when it holds at
least 3 episodes.  The trailing session is checked the same way. -/
def bingeLoop (shw : String) (ses : List EpRec) : List EpRec → List BingeSession
  | [] => if ses.length ≥ 3 then [mkSession shw ses] else []
  | e :: rest =>
      if e.date - (ses.getLastD default).date ≤ 28800 then
        bingeLoop shw (ses ++ [e]) rest
      else
        (if ses.length ≥ 3 then [mkSession shw ses] else []) ++
          bingeLoop shw [e] rest

/-- Sessions of one show (wrapped_analytics.py lines 200-233): shows with
fewer than 3 recorded episodes are skipped; episodes are sorted by date. -/
def showSessions (shw : String) (eps : List EpRec) : List BingeSession :=
  if eps.length < 3 then []
  else
    match sortByAsc EpRec.date eps with
    | [] => []
    | e :: rest => bingeLoop shw [e] rest

/-- wrapped_analytics.py `detect_binge_sessions`. -/
def detect_binge_sessions (history : List Event) : List BingeSession :=
  sortByDesc BingeSession.episode_count
    ((showWatches history).foldr (fun p acc => showSessions p.1 p.2 ++ acc) [])

/-! ### Python `round(x, 1)` -/

/-- Python `round` for a rational: round half to even (banker's rounding).
Python rounds binary floats, whose decimal artifacts are not modelled; the
bounds proved about percentages hold for any round-to-nearest tie rule. -/
def roundHalfEven (q : ℚ) : ℤ :=
  if q - ⌊q⌋ < 1 / 2 then ⌊q⌋
  else if 1 / 2 < q - ⌊q⌋ then ⌊q⌋ + 1
  else if 2 ∣ ⌊q⌋ then ⌊q⌋ else ⌊q⌋ + 1

/-- Python `round(q, 1)`. -/
def round1 (q : ℚ) : ℚ := (roundHalfEven (q * 10) : ℚ) / 10

/-! ### calculate_user_rankings (wrapped_analytics.py lines 378-413) -/

/-- A ranking entry before ranks are assigned (wrapped_analytics.py
lines 385-390). -/
structure RankBase where
  user : String
  total_time : Int
  movie_time : Int
  episode_time : Int
deriving Repr, DecidableEq

/-- A ranking entry after the loop of lines 408-411 adds `rank`,
`callout` and `total_hours`. -/
structure RankEntry where
  user : String
  total_time : Int
  movie_time : Int
  episode_time : Int
  rank : Nat
  callout : String
  total_hours : ℚ
deriving Repr, DecidableEq

/-- The fixed callout table (wrapped_analytics.py lines 395-406). -/
def callouts : List String :=
  ["👑 Server Champion", "🥈 Runner-Up Extraordinaire", "🥉 Bronze Binger",
   "🎬 Movie Maven", "📺 TV Enthusiast", "🍿 Popcorn Pro", "⭐ Rising Star",
   "🎪 Entertainment Seeker", "🎭 Culture Consumer", "🎨 Content Connoisseur"]

/-- The default callout past the table (wrapped_analytics.py line 410). -/
def defaultCallout : String := "🎯 Dedicated Viewer"

/-- `for i, rank in enumerate(rankings)` of lines 408-411: 1-based rank,
callout by index with fallback, rounded hours. -/
def addRanks (i : Nat) : List RankBase → List RankEntry
  | [] => []
  | r :: rest =>
      ⟨r.user, r.total_time, r.movie_time, r.episode_time, i + 1,
        callouts.getD i defaultCallout, round1 (r.total_time / 3600)⟩ ::
        addRanks (i + 1) rest

/-- wrapped_analytics.py `calculate_user_rankings`: drop the `'Total'` key,
sort descending by total seconds (Python stable sort), then number and
label the entries. -/
def calculate_user_rankings (all_users_stats : List (String × StatDict)) :
    List RankEntry :=
  addRanks 0
    (sortByDesc RankBase.total_time
      ((all_users_stats.filter (fun p => p.1 ≠ "Total")).map
        (fun p => ⟨p.1, p.2.total, p.2.movie, p.2.episode⟩)))

/-! ### find_unique_content (wrapped_analytics.py lines 338-376) -/

/-- wrapped_analytics.py line 348 / 362: the content key of an event,
`item.get('grandparent_rating_key') or item.get('rating_key')`, kept only
when the result is truthy (`if key:`). -/
def contentKey (e : Event) : Option Nat :=
  match pyOrKey e.grandparent_rating_key e.rating_key with
  | some k => if k = 0 then none else some k
  | none => none

/-- Add a key to a set modelled as a duplicate-free list in first-encounter
order. -/
def insertKey (acc : List Nat) (k : Nat) : List Nat :=
  if k ∈ acc then acc else acc ++ [k]

/-- One event's content key inserted into a key set. -/
def keyStep (acc : List Nat) (e : Event) : List Nat :=
  match contentKey e with
  | some k => insertKey acc k
  | none => acc

/-- The key set of one user's events (`user_items`, lines 345-350), and the
per-key accumulation used for `other_users_items` (lines 358-364). -/
def addKeys (acc : List Nat) (events : List Event) : List Nat :=
  events.foldl keyStep acc

/-- The stored item details (wrapped_analytics.py lines 351-355): first
occurrence of each key wins. -/
structure ItemDetail where
  title : Option String
  type : Option String
deriving Repr, DecidableEq

/-- One event folded into `user_item_details` (lines 345-355): only the
first occurrence of a key stores its detail. -/
def detailStep (acc : List (Nat × ItemDetail)) (e : Event) :
    List (Nat × ItemDetail) :=
  match contentKey e with
  | some k =>
      if (acc.lookup k).isSome then acc
      else acc ++ [(k, ⟨pyOrStr e.grandparent_title e.title, e.media_type⟩)]
  | none => acc

/-- `user_item_details` of lines 345-355: insertion-ordered dict from key to
detail, first occurrence kept. -/
def userItemDetails (events : List Event) : List (Nat × ItemDetail) :=
  events.foldl detailStep []

/-- Result of `find_unique_content`; `count` is `none` on the early return
of line 342, where the Python dict has no `count` key. -/
structure UniqueContent where
  unique_items : List ItemDetail
  count : Option Nat
deriving Repr, DecidableEq

/-- The events of the target user, `all_users_history[target_user]`. -/
def targetHistory (all_users_history : List (String × List Event))
    (target_user : String) : List Event :=
  (all_users_history.lookup target_user).getD []

/-- `other_users_items` (wrapped_analytics.py lines 358-364): the union of
all other users' content keys. -/
def otherUsersItems (all_users_history : List (String × List Event))
    (target_user : String) : List Nat :=
  (all_users_history.filter (fun p => p.1 ≠ target_user)).foldl
    (fun acc p => addKeys acc p.2) []

/-- `unique_keys = user_items - other_users_items` (line 367), as the
target's key set with the other users' keys removed. -/
def uniqueKeys (all_users_history : List (String × List Event))
    (target_user : String) : List Nat :=
  (addKeys [] (targetHistory all_users_history target_user)).filter
    (fun k => ¬ k ∈ otherUsersItems all_users_history target_user)

/-- wrapped_analytics.py `find_unique_content`.  Python iterates the
`unique_keys` set in unspecified order before the `[:10]` cap; the
embedding iterates the target user's keys in first-encounter order, and no
proved property depends on that order. -/
def find_unique_content (all_users_history : List (String × List Event))
    (target_user : String) : UniqueContent :=
  if ¬ target_user ∈ all_users_history.map Prod.fst then ⟨[], none⟩
  else
    let details := userItemDetails (targetHistory all_users_history target_user)
    let unique_items :=
      (uniqueKeys all_users_history target_user).filterMap
        (fun k => details.lookup k)
    ⟨unique_items.take 10, some unique_items.length⟩

/-! ### get_top_watched_items (wrapped_analytics.py lines 415-457) -/

/-- The per-key accumulator dict of line 418. -/
structure ItemStat where
  duration : Int
  title : String
  rating_key : Nat
  type : Option String
deriving Repr, DecidableEq

/-- Key and title resolution of lines 421-432: series key/title for
episodes and tracks, item key/title otherwise. -/
def resolveKT (e : Event) : Option Nat × Option String :=
  if e.media_type = some "episode" ∨ e.media_type = some "track" then
    (e.grandparent_rating_key, e.grandparent_title)
  else (e.rating_key, e.title)

/-- Title display value of line 436: `title[:36] + '...'` when the title
exceeds 36 characters. -/
def truncTitle (t : String) : String :=
  if t.length > 36 then t.take 36 ++ "..." else t

/-- One event folded into `item_stats` (lines 434-438): the defaultdict
entry starts at duration 0, durations accumulate, the title/key/type fields
are (re)assigned on every hit. -/
def updateItem (k : Nat) (t : String) (ty : Option String) (d : Int) :
    List (Nat × ItemStat) → List (Nat × ItemStat)
  | [] => [(k, ⟨d, truncTitle t, k, ty⟩)]
  | (j, s) :: rest =>
      if j = k then (j, ⟨s.duration + d, truncTitle t, k, ty⟩) :: rest
      else (j, s) :: updateItem k t ty d rest

/-- The aggregation loop of lines 420-438; only events with a truthy key
and truthy title contribute (`if key and title:`). -/
def itemStep (acc : List (Nat × ItemStat)) (e : Event) : List (Nat × ItemStat) :=
  match resolveKT e with
  | (some k, some t) =>
      if k ≠ 0 ∧ t ≠ "" then updateItem k t e.media_type e.play_duration acc
      else acc
  | _ => acc

/-- The aggregation fold over the history (wrapped_analytics.py
lines 420-438). -/
def itemStats (history : List Event) : List (Nat × ItemStat) :=
  history.foldl itemStep []

/-- One returned entry of lines 448-455; `thumbnail` comes from the
external `_download_thumbnail` collaborator, passed in as a function. -/
structure TopItem where
  title : String
  rating_key : Nat
  duration : Int
  hours : ℚ
  thumbnail : String
  type : Option String
deriving Repr, DecidableEq, Inhabited

/-- wrapped_analytics.py `get_top_watched_items`: sort the aggregated
items descending by duration, keep `limit`, resolve thumbnails. -/
def get_top_watched_items (thumb : Nat → String) (history : List Event)
    (limit : Nat) : List TopItem :=
  ((sortByDesc (fun p => p.2.duration) (itemStats history)).take limit).map
    (fun p =>
      ⟨p.2.title, p.2.rating_key, p.2.duration, round1 (p.2.duration / 3600),
        thumb p.2.rating_key, p.2.type⟩)

/-! ### analyze_genre_diversity (wrapped_analytics.py lines 240-280) -/

/-- Insertion-ordered `defaultdict(int)` bump, shared by `genre_time` and
`platform_totals`. -/
def bumpAssoc (k : String) (d : Int) : List (String × Int) → List (String × Int)
  | [] => [(k, d)]
  | (g, s) :: rest =>
      if g = k then (g, s + d) :: rest else (g, s) :: bumpAssoc k d rest

/-- wrapped_analytics.py line 246: the metadata key,
`item.get('rating_key') or item.get('grandparent_rating_key')`, kept only
when truthy (`if not rating_key: continue`). -/
def genreKeyOf (e : Event) : Option Nat :=
  match pyOrKey e.rating_key e.grandparent_rating_key with
  | some k => if k = 0 then none else some k
  | none => none

/-- The genre tags one event contributes (lines 245-261): none when the
key is falsy or the external metadata lookup raises (the `except` swallows
the failure and skips the item).  `meta` stands for
`client.get_metadata(...)['data']['genres']`. -/
def genresOf (meta : Nat → Except Unit (List String)) (e : Event) :
    List String :=
  match genreKeyOf e with
  | none => []
  | some k =>
      match meta k with
      | .ok gs => gs
      | .error _ => []

/-- One genre tag appended to `all_genres` and credited with the event's
full duration in `genre_time` (lines 256-258). -/
def tagStep (d : Int) (acc : List String × List (String × Int)) (g : String) :
    List String × List (String × Int) :=
  (acc.1 ++ [g], bumpAssoc g d acc.2)

/-- One event folded into the genre accumulators (lines 245-261). -/
def genreStep (meta : Nat → Except Unit (List String))
    (acc : List String × List (String × Int)) (e : Event) :
    List String × List (String × Int) :=
  (genresOf meta e).foldl (tagStep e.play_duration) acc

/-- The loop of lines 245-261 building `all_genres` (append order) and
`genre_time` (full event duration added to every one of its genre tags). -/
def genreFold (meta : Nat → Except Unit (List String))
    (history : List Event) : List String × List (String × Int) :=
  history.foldl (genreStep meta) ([], [])

/-- Result of `analyze_genre_diversity` (lines 276-280); a top-genre entry
is (name, seconds, rounded hours). -/
structure GenreDiversity where
  unique_genres : Nat
  top_genres : List (String × Int × ℚ)
  total_genre_tags : Nat
deriving Repr, DecidableEq

/-- wrapped_analytics.py `analyze_genre_diversity`. -/
def analyze_genre_diversity (meta : Nat → Except Unit (List String))
    (history : List Event) : GenreDiversity :=
  let acc := genreFold meta history
  ⟨acc.1.dedup.length,
    ((sortByDesc (fun p => p.2) acc.2).take 5).map
      (fun p => (p.1, p.2, round1 (p.2 / 3600))),
    acc.1.length⟩

/-! ### get_peak_watching_hours (wrapped_analytics.py lines 32-72) -/

/-- One series folded into the 24 hourly buckets (lines 45-48): bucket `i`
gains `series_data[i]` when that index exists; the 24-bucket list is never
extended, and series entries beyond bucket 23 are ignored
(`if i < 24`). -/
def addSeriesData : List Int → List Int → List Int
  | [], _ => []
  | ts, [] => ts
  | t :: ts, v :: vs => (t + v) :: addSeriesData ts vs

/-- `hourly_totals` of lines 44-48, starting from 24 zero buckets. -/
def hourlyTotals (series_data : List (List Int)) : List Int :=
  series_data.foldl addSeriesData (List.replicate 24 0)

/-- One time-of-day band of the distribution dict (lines 66-71). -/
structure BandStat where
  seconds : Int
  percentage : ℚ
deriving Repr, DecidableEq

/-- Result of `get_peak_watching_hours` (lines 61-72); the formatted peak
hour string is display-only and not modelled. -/
structure PeakHours where
  hourly_data : List Int
  peak_hour : Nat
  peak_value : Int
  morning : BandStat
  afternoon : BandStat
  evening : BandStat
  night : BandStat
deriving Repr, DecidableEq

/-- wrapped_analytics.py `get_peak_watching_hours`, taking the external
client's per-series duration arrays (`data['data']['series'][i]['data']`);
percentages are unrounded floats, modelled exactly. -/
def get_peak_watching_hours (series_data : List (List Int)) : PeakHours :=
  let totals := hourlyTotals series_data
  let morning := ((totals.drop 6).take 6).sum
  let afternoon := ((totals.drop 12).take 6).sum
  let evening := ((totals.drop 18).take 6).sum
  let night := (totals.take 6).sum
  let total := totals.sum
  let pct : Int → ℚ := fun x => if 0 < total then (x : ℚ) / total * 100 else 0
  { hourly_data := totals
    peak_hour := if totals.isEmpty then 0 else totals.indexOf ((totals.max?).getD 0)
    peak_value := if totals.isEmpty then 0 else (totals.max?).getD 0
    morning := ⟨morning, pct morning⟩
    afternoon := ⟨afternoon, pct afternoon⟩
    evening := ⟨evening, pct evening⟩
    night := ⟨night, pct night⟩ }

/-! ### get_platform_breakdown (wrapped_analytics.py lines 74-105) -/

/-- One series folded into `platform_totals` (lines 86-89), iterating
`enumerate(platforms)` with running index `i`: the platform at category
index `i` gains `series['data'][i]` when that index exists. -/
def addPlatformSeries (data : List Int) (i : Nat) (cats : List String)
    (acc : List (String × Int)) : List (String × Int) :=
  match cats with
  | [] => acc
  | c :: cs =>
      addPlatformSeries data (i + 1) cs
        (if i < data.length then bumpAssoc c (data.getD i 0) acc else acc)

/-- `platform_totals` of lines 85-89. -/
def platformTotals (cats : List String) (series_data : List (List Int)) :
    List (String × Int) :=
  series_data.foldl (fun acc data => addPlatformSeries data 0 cats acc) []

/-- One platform entry (lines 92-100). -/
structure PlatformEntry where
  name : String
  seconds : Int
  hours : ℚ
  percentage : ℚ
deriving Repr, DecidableEq

/-- Result of `get_platform_breakdown` (lines 102-105). -/
structure PlatformBreakdown where
  platforms : List PlatformEntry
  top_platform : Option PlatformEntry
deriving Repr, DecidableEq

/-- wrapped_analytics.py `get_platform_breakdown`, over the external
client's categories and per-series duration arrays. -/
def get_platform_breakdown (cats : List String)
    (series_data : List (List Int)) : PlatformBreakdown :=
  let totals := platformTotals cats series_data
  let total := (totals.map Prod.snd).sum
  let platform_list :=
    (sortByDesc (fun p => p.2) totals).map
      (fun p =>
        ⟨p.1, p.2, round1 (p.2 / 3600),
          if 0 < total then round1 ((p.2 : ℚ) / total * 100) else 0⟩)
  ⟨platform_list, platform_list.head?⟩

/-! ### calculate_library_coverage (wrapped_analytics.py lines 282-336) -/

/-- One library section from `client.get_libraries()`. -/
structure Library where
  section_id : Nat
  section_name : String
  section_type : String
deriving Repr, DecidableEq

/-- The media-type match of lines 307-313 (`media_type` read with default
`''`). -/
def sectionMatches (stype : String) (e : Event) : Bool :=
  let m := (e.media_type).getD ""
  (stype = "movie" ∧ m = "movie") ∨ (stype = "show" ∧ m = "episode") ∨
    (stype = "artist" ∧ m = "track")

/-- The key added to `watched_items` (lines 316-320): series key for
episodes and tracks, item key otherwise — possibly `None`. -/
def sectionKeyOf (e : Event) : Option Nat :=
  if (e.media_type).getD "" = "episode" ∨ (e.media_type).getD "" = "track" then
    e.grandparent_rating_key
  else e.rating_key

/-- One event folded into the `watched_items` set of one library section. -/
def watchedStep (stype : String) (acc : List (Option Nat)) (e : Event) :
    List (Option Nat) :=
  if sectionMatches stype e then
    if sectionKeyOf e ∈ acc then acc else acc ++ [sectionKeyOf e]
  else acc

/-- `watched_items` as a duplicate-free list (a Python set; order is
irrelevant to the count taken from it). -/
def watchedItems (stype : String) (history : List Event) : List (Option Nat) :=
  history.foldl (watchedStep stype) []

/-- `watched_count = len([x for x in watched_items if x])` (line 322). -/
def watchedCount (stype : String) (history : List Event) : Nat :=
  (watchedItems stype history).countP keyTruthy

/-- One coverage entry (lines 325-331). -/
structure CoverageEntry where
  name : String
  type : String
  watched : Nat
  total : Nat
  percentage : ℚ
deriving Repr, DecidableEq

/-- Result dict of line 336. -/
structure LibraryCoverage where
  libraries : List CoverageEntry
deriving Repr, DecidableEq

/-- wrapped_analytics.py `calculate_library_coverage`; `sizes` stands for
`get_library_media_info(...)['data']['recordsTotal']` and a lookup failure
skips that library (lines 332-334). -/
def calculate_library_coverage (libraries : List Library)
    (sizes : Nat → Except Unit Nat) (history : List Event) : LibraryCoverage :=
  ⟨libraries.foldr
    (fun lib acc =>
      match sizes lib.section_id with
      | .error _ => acc
      | .ok total =>
          let w := watchedCount lib.section_type history
          ⟨lib.section_name, lib.section_type, w, total,
            round1 (if 0 < total then (w : ℚ) / total * 100 else 0)⟩ :: acc)
    []⟩

/-! ### get_first_last_watch (wrapped_analytics.py lines 107-129) -/

/-- One end of the first/last result (lines 119-128); the formatted date
string is display-only, the raw epoch is kept. -/
structure WatchRef where
  title : String
  date : Nat
  type : String
deriving Repr, DecidableEq

/-- Result of `get_first_last_watch`. -/
structure FirstLast where
  first : Option WatchRef
  last : Option WatchRef
deriving Repr, DecidableEq

/-- wrapped_analytics.py `get_first_last_watch`. -/
def get_first_last_watch (history : List Event) : FirstLast :=
  if history.isEmpty then ⟨none, none⟩
  else
    match sortByAsc Event.date history with
    | [] => ⟨none, none⟩
    | e :: rest =>
        let l := rest.getLastD e
        ⟨some ⟨(e.full_title).getD "Unknown", e.date, (e.media_type).getD "unknown"⟩,
          some ⟨(l.full_title).getD "Unknown", l.date, (l.media_type).getD "unknown"⟩⟩

/-! ### The report assembler (generate_wrapped.py lines 119-203 / 226-261) -/

/-- A per-user report after the nine guarded sub-computations of
generate_wrapped.py lines 119-203.  The substituted defaults are `[]` for
`top_watched` and `binge_sessions` and an empty dict (modelled `none`) for
the rest; each sub-computation is wrapped in its own `try`, modelled by an
`Except` input. -/
structure UserReport where
  top_watched : List TopItem
  peak_hours : Option PeakHours
  platforms : Option PlatformBreakdown
  first_last : Option FirstLast
  streak : Option StreakResult
  binge_sessions : List BingeSession
  genres : Option GenreDiversity
  library_coverage : Option LibraryCoverage
  unique_content : Option UniqueContent
deriving Repr, DecidableEq

/-- The per-user assembly of generate_wrapped.py lines 119-203: every
statistic has its own `try/except` substituting its default. -/
def assembleUserReport
    (top_watched : Except String (List TopItem))
    (peak_hours : Except String PeakHours)
    (platforms : Except String PlatformBreakdown)
    (first_last : Except String FirstLast)
    (streak : Except String StreakResult)
    (binge_sessions : Except String (List BingeSession))
    (genres : Except String GenreDiversity)
    (library_coverage : Except String LibraryCoverage)
    (unique_content : Except String UniqueContent) : UserReport :=
  { top_watched := (top_watched.toOption).getD []
    peak_hours := peak_hours.toOption
    platforms := platforms.toOption
    first_last := first_last.toOption
    streak := streak.toOption
    binge_sessions := (binge_sessions.toOption).getD []
    genres := genres.toOption
    library_coverage := library_coverage.toOption
    unique_content := unique_content.toOption }

/-- The server-summary statistics (generate_wrapped.py lines 246-255). -/
structure ServerSummary where
  peak_hours : PeakHours
  platforms : PlatformBreakdown
  first_last : FirstLast
  streak : StreakResult
  binge_sessions : List BingeSession
deriving Repr, DecidableEq

/-- The server-summary assembly of generate_wrapped.py lines 226-261: one
`try` wraps every summary sub-computation (lines 240-244), so the whole
summary fails as soon as any one of them raises. -/
def assembleServerSummary
    (peak_hours : Except String PeakHours)
    (platforms : Except String PlatformBreakdown)
    (first_last : Except String FirstLast)
    (streak : Except String StreakResult)
    (binge_sessions : Except String (List BingeSession)) :
    Except String ServerSummary := do
  let p ← peak_hours
  let pl ← platforms
  let fl ← first_last
  let st ← streak
  let bg ← binge_sessions
  pure ⟨p, pl, fl, st, bg⟩

/-- generate_wrapped.py line 243: the server-wide streak statistic is
computed over the raw `all_history` list (no tracked-media or user
filtering is applied to the summary inputs of lines 242-244). -/
def serverWideStreak (today : Nat) (all_history : List Event) : StreakResult :=
  calculate_watch_streaks today all_history

/-! ### Characterizations used by the theorem statements -/

/-- The content key under which `get_top_watched_items` counts an event,
or `none` when the event is skipped (`if key and title:`). -/
def resolvedKey (e : Event) : Option Nat :=
  match resolveKT e with
  | (some k, some t) => if k ≠ 0 ∧ t ≠ "" then some k else none
  | _ => none

/-- Total play duration of the events counted under key `k` by
`get_top_watched_items`. -/
def keyedDuration (history : List Event) (k : Nat) : Int :=
  ((history.filter (fun e => resolvedKey e = some k)).map Event.play_duration).sum

/-- Lookup in an insertion-ordered `defaultdict(int)`, reading 0 for a
missing key. -/
def lookupSeconds (l : List (String × Int)) (g : String) : Int :=
  (l.lookup g).getD 0

/-- Seconds the genre analysis should credit to genre `g`: every event
contributes its full play duration once per occurrence of `g` in its
genre-tag list. -/
def genreSeconds (meta : Nat → Except Unit (List String))
    (history : List Event) (g : String) : Int :=
  (history.map (fun e => e.play_duration * ((genresOf meta e).count g : Int))).sum

/-- The distinct users owning at least one counted (tracked, user-bearing)
event, as a duplicate-free list. -/
def distinctTrackedUsers (events : List Event) : List String :=
  ((filterTracked events).map (fun e => (e.friendly_name).getD "")).dedup

/-- The accumulated stats of user `u` after folding `events`
(zero for a user never seen). -/
def statOf (events : List Event) (u : String) : StatDict :=
  (((userStats events).lookup u)).getD {}

/-- Componentwise order on accumulated stats. -/
def statLe (a b : StatDict) : Prop :=
  a.movie ≤ b.movie ∧ a.episode ≤ b.episode ∧ a.total ≤ b.total

/-! ### Concrete inputs used by examples and counterexamples -/

/-- A history entry with an untracked media type and no user. -/
def trackOnlyEvent : Event := { media_type := some "track", date := 0 }

/-- An episode of the show "X" watched at epoch second `t`. -/
def epOfShowX (t : Nat) : Event :=
  { media_type := some "episode", grandparent_title := some "X",
    full_title := some "X - ep", friendly_name := some "A",
    play_duration := 1500, date := t }

/-- A movie watch event for user `u` on item `k`. -/
def movieEvent (u : String) (k : Nat) : Event :=
  { media_type := some "movie", friendly_name := some u, rating_key := some k,
    title := some (String.append "m" (toString k)), play_duration := 10 }

/-- A tracked movie event of a user literally named "Total". -/
def totalUserEvent : Event :=
  { media_type := some "movie", friendly_name := some "Total",
    rating_key := some 1, title := some "m", play_duration := 5 }

/-- A movie event whose date falls on day `d`. -/
def dayEvent (d : Nat) : Event :=
  { media_type := some "movie", friendly_name := some "A", date := d * 86400 }

/-- An event carrying both an item key (1) and a series key (2). -/
def bothKeysEvent : Event :=
  { media_type := some "movie", rating_key := some 1,
    grandparent_rating_key := some 2, play_duration := 5 }

/-- A track event carrying both an item key/title and a series
key/title. -/
def trackBothKeysEvent : Event :=
  { media_type := some "track", rating_key := some 5,
    title := some "ItemTitle", grandparent_rating_key := some 6,
    grandparent_title := some "SeriesTitle", friendly_name := some "A",
    play_duration := 30 }

/-- A metadata lookup answering genre "ItemGenre" for key 1 and
"SeriesGenre" for every other key. -/
def metaTwoGenres : Nat → Except Unit (List String) :=
  fun k => if k = 1 then .ok ["ItemGenre"] else .ok ["SeriesGenre"]

/-- A single movie library whose reported size is 1. -/
def smallMovieLibrary : Library := ⟨1, "Movies", "movie"⟩

/-- The spec's unique-content example: user A watched items 1, 2, 3 and
user B watched items 2, 3, 4. -/
def exampleUsersHistory : List (String × List Event) :=
  [("A", [movieEvent "A" 1, movieEvent "A" 2, movieEvent "A" 3]),
   ("B", [movieEvent "B" 2, movieEvent "B" 3, movieEvent "B" 4])]

/-! ## Helper lemmas -/

theorem sortByAsc_perm {α β : Type} [LinearOrder β] (key : α → β) (l : List α) :
    List.Perm (sortByAsc key l) l :=
  List.perm_insertionSort _ l

theorem sortByDesc_perm {α β : Type} [LinearOrder β] (key : α → β) (l : List α) :
    List.Perm (sortByDesc key l) l :=
  List.perm_insertionSort _ l

theorem sortByAsc_sorted {α β : Type} [LinearOrder β] (key : α → β) (l : List α) :
    (sortByAsc key l).Pairwise (fun a b => key a ≤ key b) :=
  List.sorted_insertionSort _ l

theorem sortByDesc_sorted {α β : Type} [LinearOrder β] (key : α → β) (l : List α) :
    (sortByDesc key l).Pairwise (fun a b => key b ≤ key a) :=
  List.sorted_insertionSort _ l

theorem mem_sortByAsc {α β : Type} [LinearOrder β] {key : α → β} {l : List α}
    {a : α} : a ∈ sortByAsc key l ↔ a ∈ l :=
  (sortByAsc_perm key l).mem_iff

theorem mem_sortByDesc {α β : Type} [LinearOrder β] {key : α → β} {l : List α}
    {a : α} : a ∈ sortByDesc key l ↔ a ∈ l :=
  (sortByDesc_perm key l).mem_iff

theorem length_sortByDesc {α β : Type} [LinearOrder β] (key : α → β)
    (l : List α) : (sortByDesc key l).length = l.length :=
  (sortByDesc_perm key l).length_eq

theorem pairwise_take {α : Type} {R : α → α → Prop} {l : List α} (n : Nat)
    (h : l.Pairwise R) : (l.take n).Pairwise R :=
  List.Pairwise.sublist (List.take_sublist n l) h

/-- Folding `statStep` ignores entries that fail the tracked/user filter. -/
theorem foldl_statStep_filterTracked (events : List Event)
    (acc : List (String × StatDict)) :
    (filterTracked events).foldl statStep acc = events.foldl statStep acc := by
  induction events generalizing acc with
  | nil => rfl
  | cons e es ih =>
      by_cases h : isCounted e <;>
        simp [filterTracked, List.filter_cons, h, statStep] <;>
        simpa [filterTracked] using ih _

/-- Restricting the per-user slice to tracked events is a no-op: the slice
predicate already requires the event to pass the tracked/user filter. -/
theorem userHistory_filterTracked (events : List Event) (u : String) :
    userHistory (filterTracked events) u = userHistory events u := by
  induction events with
  | nil => rfl
  | cons e es ih =>
      by_cases h : isCounted e <;>
        simp [userHistory, filterTracked, List.filter_cons, h] at ih ⊢ <;>
        simp [ih]

/-! ## Claim C1 -/

/-- C1 (counterexample): an event whose media type is `track` and which
carries no user is excluded by the tracked filter, yet the server-wide
streak statistic of generate_wrapped.py line 243 — computed over the raw
history list — counts it: with that single event the reported server
streak has 1 active day and a longest streak of 1, while over the filtered
history both are 0.  So the claim that no statistic of a report run counts
such an event is false. -/
theorem c1_counterexample :
    filterTracked [trackOnlyEvent] = [] ∧
    serverWideStreak 100 [trackOnlyEvent] =
      { longest_streak := 1, current_streak := 0, total_active_days := 1 } ∧
    serverWideStreak 100 (filterTracked [trackOnlyEvent]) =
      { longest_streak := 0, current_streak := 0, total_active_days := 0 } := by
  exact ⟨rfl, rfl, rfl⟩

/-- C1 (amended): untracked or user-less raw history events are excluded
from all per-user aggregation — removing them changes neither the per-user
duration totals nor the per-user history slices every per-user statistic
is computed from.  (The server-wide summary statistics of
generate_wrapped.py lines 242-244, by contrast, run over the unfiltered
history; see the counterexample.) -/
theorem c1_per_user_aggregation_excludes_untracked :
    (∀ events, userStats (filterTracked events) = userStats events) ∧
    (∀ events u, userHistory (filterTracked events) u = userHistory events u) :=
  ⟨fun events => foldl_statStep_filterTracked events [],
   fun events u => userHistory_filterTracked events u⟩

/-! ## Claim C4 -/

/-- C4 (counterexample): in the server summary (generate_wrapped.py
lines 226-261) a single `try` guards all five summary sub-computations, so
when the peak-hours computation raises, the whole summary is aborted and
none of the other statistics (platforms, first/last, streak, binges) is
computed into a report — contradicting the claim that a failure in one
sub-computation never aborts the others in the same report. -/
theorem c4_counterexample :
    assembleServerSummary (Except.error "peak hours failed")
      (Except.ok (get_platform_breakdown [] []))
      (Except.ok (get_first_last_watch []))
      (Except.ok (calculate_watch_streaks 0 []))
      (Except.ok (detect_binge_sessions [])) =
      Except.error "peak hours failed" := rfl

/-- C4 (amended): in per-user reports the nine guarded analytics
sub-computations are independent — each report field is a function of its
own sub-computation alone, a failing one being replaced by its
empty/zeroed default — while the server summary runs its five statistics
under one shared guard, so its report exists exactly when every one of
them succeeds. -/
theorem c4_per_user_isolation_server_single_guard :
    (∀ (t : Except String (List TopItem)) (p : Except String PeakHours)
        (pl : Except String PlatformBreakdown) (fl : Except String FirstLast)
        (st : Except String StreakResult)
        (bg : Except String (List BingeSession))
        (g : Except String GenreDiversity)
        (lc : Except String LibraryCoverage)
        (uc : Except String UniqueContent),
      (assembleUserReport t p pl fl st bg g lc uc).top_watched =
          (t.toOption).getD [] ∧
      (assembleUserReport t p pl fl st bg g lc uc).peak_hours = p.toOption ∧
      (assembleUserReport t p pl fl st bg g lc uc).platforms = pl.toOption ∧
      (assembleUserReport t p pl fl st bg g lc uc).first_last = fl.toOption ∧
      (assembleUserReport t p pl fl st bg g lc uc).streak = st.toOption ∧
      (assembleUserReport t p pl fl st bg g lc uc).binge_sessions =
          (bg.toOption).getD [] ∧
      (assembleUserReport t p pl fl st bg g lc uc).genres = g.toOption ∧
      (assembleUserReport t p pl fl st bg g lc uc).library_coverage =
          lc.toOption ∧
      (assembleUserReport t p pl fl st bg g lc uc).unique_content =
          uc.toOption) ∧
    (∀ p pl fl st bg,
      assembleServerSummary (Except.ok p) (Except.ok pl) (Except.ok fl)
        (Except.ok st) (Except.ok bg) = Except.ok ⟨p, pl, fl, st, bg⟩) :=
  ⟨fun _ _ _ _ _ _ _ _ _ =>
      ⟨rfl, rfl, rfl, rfl, rfl, rfl, rfl, rfl, rfl⟩,
   fun _ _ _ _ _ => rfl⟩

/-! ## Claim C6 -/

/-- The second component of the streak scan is the length of the run in
progress, as described by `lastRunAux`. -/
theorem streakFold_snd (rest : List Nat) :
    ∀ prev longest current,
      (streakFold prev longest current rest).2 = lastRunAux prev current rest := by
  induction rest with
  | nil => intros; rfl
  | cons d rest ih =>
      intro prev longest current
      by_cases h : d = prev + 1
      · have h2 : d - prev = 1 := by omega
        simp [streakFold, lastRunAux, h, h2, ih]
      · have h2 : ¬ d - prev = 1 := by omega
        simp [streakFold, lastRunAux, h, h2, ih]

/-- The final `max` of the streak scan computes the longest run: the scan
keeps the best closed run in its first component and the open run in its
second. -/
theorem streakFold_max (rest : List Nat) :
    ∀ prev longest current,
      max (streakFold prev longest current rest).1
          (streakFold prev longest current rest).2 =
        max longest (maxRunAux prev current rest) := by
  induction rest with
  | nil => intros; rfl
  | cons d rest ih =>
      intro prev longest current
      by_cases h : d = prev + 1
      · have h2 : d - prev = 1 := by omega
        simp [streakFold, maxRunAux, h, h2, ih]
      · have h2 : ¬ d - prev = 1 := by omega
        simp only [streakFold, maxRunAux, h, h2, if_neg, ite_false]
        rw [ih]
        by_cases hc : current > longest <;> simp only [hc, ite_true, ite_false] <;> omega

/-- A run in progress never shrinks the reported maximum. -/
theorem le_maxRunAux (rest : List Nat) :
    ∀ prev current, current ≤ maxRunAux prev current rest := by
  induction rest with
  | nil => intros; exact le_rfl
  | cons d rest ih =>
      intro prev current
      by_cases h : d = prev + 1
      · simp only [maxRunAux, h, ite_true]
        exact le_trans (Nat.le_succ current) (ih _ (current + 1))
      · simp only [maxRunAux, h, ite_false]
        exact le_max_left _ _

/-- C6: `calculate_watch_streaks` reports as longest streak the length of
the longest run of consecutive calendar dates (a 1-day gap continues a
run, any other gap breaks it), as current streak the last run's length —
zeroed when the last active date is more than 1 day before today — and the
number of distinct active dates; empty input yields the all-zero result,
dates D, D+1, D+2 give a longest streak of 3, and dates D, D+2 give 1. -/
theorem c6_watch_streaks :
    (∀ today, calculate_watch_streaks today [] = ⟨0, 0, 0⟩) ∧
    (∀ today history,
      (calculate_watch_streaks today history).longest_streak =
        longestRun (sortedDates history)) ∧
    (∀ today history,
      (calculate_watch_streaks today history).current_streak =
        if history.isEmpty then 0
        else if today - (sortedDates history).getLastD 0 ≤ 1 then
          lastRun (sortedDates history)
        else 0) ∧
    (∀ today history,
      (calculate_watch_streaks today history).total_active_days =
        (sortedDates history).length) ∧
    calculate_watch_streaks 2 [dayEvent 0, dayEvent 1, dayEvent 2] =
      ⟨3, 3, 3⟩ ∧
    calculate_watch_streaks 2 [dayEvent 0, dayEvent 2] = ⟨1, 1, 2⟩ := by
  refine ⟨fun today => rfl, ?_, ?_, ?_, rfl, rfl⟩
  · intro today history
    by_cases hemp : history.isEmpty
    · rw [List.isEmpty_iff.mp hemp]
      rfl
    · cases h : sortedDates history with
      | nil => simp [calculate_watch_streaks, hemp, h, longestRun]
      | cons d rest =>
          simp only [calculate_watch_streaks, hemp, Bool.false_eq_true,
            ite_false, h, longestRun]
          have hmax := streakFold_max rest d 1 1
          have hle := le_maxRunAux rest d 1
          by_cases hc : (streakFold d 1 1 rest).2 > (streakFold d 1 1 rest).1 <;>
            simp only [hc, ite_true, ite_false] <;> omega
  · intro today history
    by_cases hemp : history.isEmpty
    · rw [List.isEmpty_iff.mp hemp]
      simp [calculate_watch_streaks]
    · cases h : sortedDates history with
      | nil => simp [calculate_watch_streaks, hemp, h, lastRun]
      | cons d rest =>
          simp only [calculate_watch_streaks, hemp, Bool.false_eq_true,
            ite_false, h, lastRun, List.getLastD_cons]
          rw [streakFold_snd]
  · intro today history
    by_cases hemp : history.isEmpty
    · rw [List.isEmpty_iff.mp hemp]
      rfl
    · cases h : sortedDates history with
      | nil => simp [calculate_watch_streaks, hemp, h]
      | cons d rest =>
          simp [calculate_watch_streaks, hemp, h]

/-! ## Claim C2 -/

/-- Updating a user's stats keeps the key list, except that a new user's
key is appended. -/
theorem updateAssoc_keys (u : String) (f : StatDict → StatDict) :
    ∀ l : List (String × StatDict),
      (updateAssoc u f l).map Prod.fst =
        if u ∈ l.map Prod.fst then l.map Prod.fst
        else l.map Prod.fst ++ [u] := by
  intro l
  induction l with
  | nil => simp [updateAssoc]
  | cons p rest ih =>
      by_cases h : p.1 = u
      · simp [updateAssoc, h]
      · have hne : ¬ u = p.1 := fun hh => h hh.symm
        simp only [updateAssoc, h, ite_false, List.map_cons, List.mem_cons,
          hne, false_or, ih]
        by_cases hm : u ∈ rest.map Prod.fst <;> simp [hm]

theorem mem_updateAssoc_keys (u : String) (f : StatDict → StatDict)
    (l : List (String × StatDict)) (v : String) :
    v ∈ (updateAssoc u f l).map Prod.fst ↔ v ∈ l.map Prod.fst ∨ v = u := by
  rw [updateAssoc_keys]
  by_cases h : u ∈ l.map Prod.fst
  · simp only [h, ite_true]
    constructor
    · exact Or.inl
    · rintro (hv | rfl)
      · exact hv
      · exact h
  · simp [h]

theorem updateAssoc_keys_nodup (u : String) (f : StatDict → StatDict)
    (l : List (String × StatDict)) (h : (l.map Prod.fst).Nodup) :
    ((updateAssoc u f l).map Prod.fst).Nodup := by
  rw [updateAssoc_keys]
  by_cases hm : u ∈ l.map Prod.fst
  · simpa [hm] using h
  · simp [hm, List.nodup_append, h]

/-- Membership in the user-stats keys after folding a history: exactly the
initial keys plus the users of counted events. -/
theorem mem_foldl_statStep_keys (events : List Event) :
    ∀ (acc : List (String × StatDict)) (u : String),
      u ∈ ((events.foldl statStep acc).map Prod.fst) ↔
        u ∈ acc.map Prod.fst ∨
          ∃ e ∈ events, isCounted e ∧ (e.friendly_name).getD "" = u := by
  induction events with
  | nil => simp
  | cons e es ih =>
      intro acc u
      rw [List.foldl_cons]
      by_cases h : isCounted e
      · rw [ih, show statStep acc e = updateAssoc ((e.friendly_name).getD "")
            (updateStat ((e.media_type).getD "") e.play_duration) acc from if_pos h,
          mem_updateAssoc_keys]
        simp only [List.mem_cons]
        constructor
        · rintro ((hv | rfl) | ⟨x, hx, hcx, hux⟩)
          · exact Or.inl hv
          · exact Or.inr ⟨e, Or.inl rfl, h, rfl⟩
          · exact Or.inr ⟨x, Or.inr hx, hcx, hux⟩
        · rintro (hv | ⟨x, (rfl | hx), hcx, hux⟩)
          · exact Or.inl (Or.inl hv)
          · exact Or.inl (Or.inr hux.symm)
          · exact Or.inr ⟨x, hx, hcx, hux⟩
      · rw [show statStep acc e = acc from if_neg h, ih]
        simp only [List.mem_cons]
        constructor
        · rintro (hv | ⟨x, hx, hcx, hux⟩)
          · exact Or.inl hv
          · exact Or.inr ⟨x, Or.inr hx, hcx, hux⟩
        · rintro (hv | ⟨x, (rfl | hx), hcx, hux⟩)
          · exact Or.inl hv
          · exact absurd hcx h
          · exact Or.inr ⟨x, hx, hcx, hux⟩

theorem foldl_statStep_keys_nodup (events : List Event) :
    ∀ acc : List (String × StatDict), ((acc.map Prod.fst).Nodup) →
      (((events.foldl statStep acc).map Prod.fst)).Nodup := by
  induction events with
  | nil => exact fun acc h => h
  | cons e es ih =>
      intro acc h
      rw [List.foldl_cons]
      refine ih _ ?_
      by_cases hc : isCounted e
      · rw [show statStep acc e = updateAssoc ((e.friendly_name).getD "")
            (updateStat ((e.media_type).getD "") e.play_duration) acc from if_pos hc]
        exact updateAssoc_keys_nodup _ _ _ h
      · rwa [show statStep acc e = acc from if_neg hc]

/-- The user-stats dict has one entry per distinct counted user. -/
theorem userStats_length (events : List Event) :
    (userStats events).length = (distinctTrackedUsers events).length := by
  have hkeys : ((userStats events).map Prod.fst).Nodup :=
    foldl_statStep_keys_nodup events [] (by simp)
  have hperm : List.Perm ((userStats events).map Prod.fst)
      (distinctTrackedUsers events) := by
    unfold distinctTrackedUsers
    rw [List.perm_ext_iff_of_nodup hkeys (List.nodup_dedup _)]
    intro u
    rw [show userStats events = List.foldl statStep [] events from rfl,
      mem_foldl_statStep_keys]
    simp only [List.map_nil, List.not_mem_nil, false_or, List.mem_dedup,
      List.mem_map, filterTracked, List.mem_filter]
    constructor
    · rintro ⟨e, he, hc, hu⟩
      exact ⟨e, ⟨he, hc⟩, hu⟩
    · rintro ⟨e, ⟨he, hc⟩, hu⟩
      exact ⟨e, he, hc, hu⟩
  calc (userStats events).length
      = ((userStats events).map Prod.fst).length := (List.length_map _ _).symm
    _ = (distinctTrackedUsers events).length := hperm.length_eq

theorem length_addRanks (l : List RankBase) :
    ∀ i, (addRanks i l).length = l.length := by
  induction l with
  | nil => intro i; rfl
  | cons r rest ih => intro i; simp [addRanks, ih]

theorem addRanks_rank_get (l : List RankBase) :
    ∀ (i j : Nat) (h : j < (addRanks i l).length),
      ((addRanks i l).get ⟨j, h⟩).rank = i + j + 1 := by
  induction l with
  | nil => intro i j h; simp [addRanks] at h
  | cons r rest ih =>
      intro i j h
      cases j with
      | zero => rfl
      | succ j =>
          have h2 : j < (addRanks (i + 1) rest).length := by
            have hl := h
            simp only [addRanks, List.length_cons] at hl
            omega
          have hrec := ih (i + 1) j h2
          have h3 : ((addRanks i (r :: rest)).get ⟨j + 1, h⟩) =
              (addRanks (i + 1) rest).get ⟨j, h2⟩ := rfl
          rw [h3, hrec]
          omega

theorem mem_addRanks (l : List RankBase) :
    ∀ i e, e ∈ addRanks i l →
      ∃ b ∈ l, e.total_time = b.total_time ∧
        e.callout = callouts.getD (e.rank - 1) defaultCallout := by
  induction l with
  | nil => intro i e h; simp [addRanks] at h
  | cons r rest ih =>
      intro i e he
      rcases List.mem_cons.mp he with rfl | hmem
      · exact ⟨r, List.mem_cons_self r rest, rfl, by simp [addRanks]⟩
      · obtain ⟨b, hb, hbe⟩ := ih (i + 1) e hmem
        exact ⟨b, List.mem_cons_of_mem r hb, hbe⟩

theorem addRanks_pairwise (l : List RankBase) :
    ∀ i, l.Pairwise (fun a b => b.total_time ≤ a.total_time) →
      (addRanks i l).Pairwise (fun a b => b.total_time ≤ a.total_time) := by
  induction l with
  | nil => intro i _; exact List.Pairwise.nil
  | cons r rest ih =>
      intro i hp
      rcases List.pairwise_cons.mp hp with ⟨hr, hrest⟩
      refine List.pairwise_cons.mpr ⟨?_, ih (i + 1) hrest⟩
      intro e he
      obtain ⟨b, hb, hbe, -⟩ := mem_addRanks rest (i + 1) e he
      simpa [hbe] using hr b hb

/-- C2 (counterexample): a user literally named "Total" is dropped by the
ranking (wrapped_analytics.py lines 383-384), so with one tracked movie
event of user "Total" the ranking is empty while one distinct user has a
tracked event — the claimed length equality fails. -/
theorem c2_counterexample :
    (calculate_user_rankings (userStats [totalUserEvent])).length = 0 ∧
    (distinctTrackedUsers [totalUserEvent]).length = 1 :=
  ⟨rfl, rfl⟩

/-- C2 (amended): provided no event's user is literally named "Total"
(the ranking skips that reserved key), the ranking built from the per-user
aggregates has one entry per distinct user with a counted event, ranks
1, 2, …, n in order, non-increasing total durations, and each callout is
the rank-indexed entry of the fixed table, defaulting past its length. -/
theorem c2_rankings (events : List Event)
    (hT : ∀ e ∈ events, (e.friendly_name).getD "" ≠ "Total") :
    (calculate_user_rankings (userStats events)).length =
      (distinctTrackedUsers events).length ∧
    (∀ (j : Nat) (h : j < (calculate_user_rankings (userStats events)).length),
      ((calculate_user_rankings (userStats events)).get ⟨j, h⟩).rank = j + 1) ∧
    (calculate_user_rankings (userStats events)).Pairwise
      (fun a b => b.total_time ≤ a.total_time) ∧
    (∀ r ∈ calculate_user_rankings (userStats events),
      r.callout = callouts.getD (r.rank - 1) defaultCallout) := by
  have hfilter : (userStats events).filter (fun p => p.1 ≠ "Total") =
      userStats events := by
    rw [List.filter_eq_self]
    intro p hp
    have hk : p.1 ∈ (userStats events).map Prod.fst :=
      List.mem_map_of_mem Prod.fst hp
    rw [show userStats events = List.foldl statStep [] events from rfl,
      mem_foldl_statStep_keys] at hk
    rcases hk with hk | ⟨e, he, -, hue⟩
    · simp at hk
    · simpa [hue] using hT e he
  refine ⟨?_, ?_, ?_, ?_⟩
  · rw [calculate_user_rankings, hfilter, length_addRanks, length_sortByDesc,
      List.length_map, userStats_length]
  · intro j h
    simp only [calculate_user_rankings] at h ⊢
    simpa using addRanks_rank_get _ 0 j h
  · exact addRanks_pairwise _ 0 (sortByDesc_sorted RankBase.total_time _)
  · intro r hr
    obtain ⟨-, -, -, hc⟩ := mem_addRanks _ 0 r hr
    exact hc

/-- C2 witness: two users with one movie each satisfy the no-"Total"
hypothesis and get a 2-entry ranking. -/
theorem c2_rankings_witness :
    (∀ e ∈ [movieEvent "A" 1, movieEvent "B" 2],
      (e.friendly_name).getD "" ≠ "Total") ∧
    (calculate_user_rankings
        (userStats [movieEvent "A" 1, movieEvent "B" 2])).length =
      (distinctTrackedUsers [movieEvent "A" 1, movieEvent "B" 2]).length :=
  ⟨by decide, (c2_rankings [movieEvent "A" 1, movieEvent "B" 2] (by decide)).1⟩

/-! ## Claim C3 -/

/-- Whatever the emission guard produces satisfies the session
invariants. -/
theorem mem_emit (shw : String) (ses : List EpRec)
    (hch : ses.Chain' (fun a b => b.date - a.date ≤ 28800)) (s : BingeSession)
    (hs : s ∈ if ses.length ≥ 3 then [mkSession shw ses] else []) :
    3 ≤ s.episode_count ∧ s.episode_count = s.episodes.length ∧
      s.episodes.Chain' (fun a b => b.date - a.date ≤ 28800) := by
  by_cases h3 : ses.length ≥ 3
  · rw [if_pos h3] at hs
    rcases List.mem_singleton.mp hs with rfl
    exact ⟨h3, rfl, hch⟩
  · rw [if_neg h3] at hs
    exact absurd hs (List.not_mem_nil s)

/-- Every session the greedy scan emits has at least 3 episodes, its
episode count is the length of its episode list, and consecutive episodes
of the session are at most 28800 seconds apart. -/
theorem bingeLoop_mem (shw : String) :
    ∀ (rest ses : List EpRec), ses ≠ [] →
      ses.Chain' (fun a b => b.date - a.date ≤ 28800) →
      ∀ s ∈ bingeLoop shw ses rest,
        3 ≤ s.episode_count ∧ s.episode_count = s.episodes.length ∧
          s.episodes.Chain' (fun a b => b.date - a.date ≤ 28800) := by
  intro rest
  induction rest with
  | nil =>
      intro ses hne hch s hs
      exact mem_emit shw ses hch s hs
  | cons e rest ih =>
      intro ses hne hch s hs
      simp only [bingeLoop] at hs
      by_cases hgap : e.date - (ses.getLastD default).date ≤ 28800
      · rw [if_pos hgap] at hs
        refine ih (ses ++ [e]) (by simp) ?_ s hs
        rw [List.chain'_append]
        refine ⟨hch, List.chain'_singleton e, ?_⟩
        intro x hx y hy
        have hx2 : ses.getLastD default = x := by
          rw [List.getLastD_eq_getLast?, Option.mem_def.mp hx]
          rfl
        have hy2 : y = e := by simpa using hy.symm
        rw [← hx2, hy2]
        exact hgap
      · rw [if_neg hgap] at hs
        rcases List.mem_append.mp hs with hs1 | hs2
        · exact mem_emit shw ses hch s hs1
        · exact ih [e] (by simp) (List.chain'_singleton e) s hs2

/-- Session invariants hold for every session of one show. -/
theorem showSessions_mem (shw : String) (eps : List EpRec) :
    ∀ s ∈ showSessions shw eps,
      3 ≤ s.episode_count ∧ s.episode_count = s.episodes.length ∧
        s.episodes.Chain' (fun a b => b.date - a.date ≤ 28800) := by
  intro s hs
  unfold showSessions at hs
  by_cases hlen : eps.length < 3
  · rw [if_pos hlen] at hs
    exact absurd hs (List.not_mem_nil s)
  · rw [if_neg hlen] at hs
    cases h : sortByAsc EpRec.date eps with
    | nil => rw [h] at hs; exact absurd hs (List.not_mem_nil s)
    | cons e rest =>
        rw [h] at hs
        exact bingeLoop_mem shw rest [e] (by simp)
          (List.chain'_singleton e) s hs

theorem mem_foldr_showSessions (groups : List (String × List EpRec))
    (s : BingeSession) :
    s ∈ groups.foldr (fun p acc => showSessions p.1 p.2 ++ acc) [] ↔
      ∃ p ∈ groups, s ∈ showSessions p.1 p.2 := by
  induction groups with
  | nil => simp
  | cons g gs ih => simp [List.mem_append, ih]

/-- C3: every emitted binge session has at least 3 episodes (its count
being the episode-list length) with consecutive episodes at most 28800
seconds apart, the output is sorted by episode count descending, and on
the claim's concrete inputs — 3 episodes of show "X" at t = 0, 3600,
7200, optionally followed by a 4th at t = 36001 — exactly one session of
3 episodes is produced (the 28801-second gap starts a fresh run that never
reaches 3 episodes). -/
theorem c3_binge_sessions :
    detect_binge_sessions [epOfShowX 0, epOfShowX 3600, epOfShowX 7200] =
      [⟨"X", 3, 0,
        [⟨0, some "X - ep", none, none⟩, ⟨3600, some "X - ep", none, none⟩,
          ⟨7200, some "X - ep", none, none⟩]⟩] ∧
    detect_binge_sessions
        [epOfShowX 0, epOfShowX 3600, epOfShowX 7200, epOfShowX 36001] =
      [⟨"X", 3, 0,
        [⟨0, some "X - ep", none, none⟩, ⟨3600, some "X - ep", none, none⟩,
          ⟨7200, some "X - ep", none, none⟩]⟩] ∧
    (∀ history s, s ∈ detect_binge_sessions history →
      3 ≤ s.episode_count ∧ s.episode_count = s.episodes.length ∧
        s.episodes.Chain' (fun a b => b.date - a.date ≤ 28800)) ∧
    (∀ history, (detect_binge_sessions history).Pairwise
      (fun a b => b.episode_count ≤ a.episode_count)) := by
  refine ⟨by decide, by decide, ?_, ?_⟩
  · intro history s hs
    unfold detect_binge_sessions at hs
    rw [mem_sortByDesc, mem_foldr_showSessions] at hs
    obtain ⟨p, -, hp⟩ := hs
    exact showSessions_mem p.1 p.2 s hp
  · intro history
    exact sortByDesc_sorted BingeSession.episode_count _

/-! ## Claim C5 -/

theorem mem_insertKey (acc : List Nat) (k v : Nat) :
    v ∈ insertKey acc k ↔ v ∈ acc ∨ v = k := by
  unfold insertKey
  by_cases h : k ∈ acc
  · simp only [h, ite_true]
    constructor
    · exact Or.inl
    · rintro (hv | rfl)
      · exact hv
      · exact h
  · simp [h]

theorem insertKey_nodup (acc : List Nat) (k : Nat) (h : acc.Nodup) :
    (insertKey acc k).Nodup := by
  unfold insertKey
  by_cases hm : k ∈ acc
  · simpa [hm] using h
  · simp [hm, List.nodup_append, h]

theorem mem_addKeys (events : List Event) :
    ∀ (acc : List Nat) (v : Nat),
      v ∈ addKeys acc events ↔
        v ∈ acc ∨ ∃ e ∈ events, contentKey e = some v := by
  induction events with
  | nil => simp [addKeys]
  | cons e es ih =>
      intro acc v
      rw [show addKeys acc (e :: es) = addKeys (keyStep acc e) es from rfl, ih]
      cases hk : contentKey e with
      | none =>
          rw [show keyStep acc e = acc from by simp [keyStep, hk]]
          simp only [List.mem_cons]
          constructor
          · rintro (hv | ⟨x, hx, hcx⟩)
            · exact Or.inl hv
            · exact Or.inr ⟨x, Or.inr hx, hcx⟩
          · rintro (hv | ⟨x, (rfl | hx), hcx⟩)
            · exact Or.inl hv
            · rw [hk] at hcx; cases hcx
            · exact Or.inr ⟨x, hx, hcx⟩
      | some j =>
          rw [show keyStep acc e = insertKey acc j from by simp [keyStep, hk]]
          rw [mem_insertKey]
          simp only [List.mem_cons]
          constructor
          · rintro ((hv | rfl) | ⟨x, hx, hcx⟩)
            · exact Or.inl hv
            · exact Or.inr ⟨e, Or.inl rfl, hk⟩
            · exact Or.inr ⟨x, Or.inr hx, hcx⟩
          · rintro (hv | ⟨x, (rfl | hx), hcx⟩)
            · exact Or.inl (Or.inl hv)
            · rw [hk] at hcx
              exact Or.inl (Or.inr (Option.some_inj.mp hcx).symm)
            · exact Or.inr ⟨x, hx, hcx⟩

theorem addKeys_nodup (events : List Event) :
    ∀ acc : List Nat, acc.Nodup → (addKeys acc events).Nodup := by
  induction events with
  | nil => exact fun acc h => h
  | cons e es ih =>
      intro acc h
      rw [show addKeys acc (e :: es) = addKeys (keyStep acc e) es from rfl]
      refine ih _ ?_
      cases hk : contentKey e with
      | none => simpa [keyStep, hk] using h
      | some j =>
          rw [show keyStep acc e = insertKey acc j from by simp [keyStep, hk]]
          exact insertKey_nodup acc j h

theorem mem_users_foldl_addKeys (ps : List (String × List Event)) :
    ∀ (acc : List Nat) (v : Nat),
      v ∈ ps.foldl (fun acc p => addKeys acc p.2) acc ↔
        v ∈ acc ∨ ∃ p ∈ ps, ∃ e ∈ p.2, contentKey e = some v := by
  induction ps with
  | nil => simp
  | cons p ps ih =>
      intro acc v
      rw [List.foldl_cons, ih, mem_addKeys]
      simp only [List.mem_cons]
      constructor
      · rintro ((hv | ⟨e, he, hce⟩) | ⟨q, hq, e, he, hce⟩)
        · exact Or.inl hv
        · exact Or.inr ⟨p, Or.inl rfl, e, he, hce⟩
        · exact Or.inr ⟨q, Or.inr hq, e, he, hce⟩
      · rintro (hv | ⟨q, (rfl | hq), e, he, hce⟩)
        · exact Or.inl (Or.inl hv)
        · exact Or.inl (Or.inr ⟨e, he, hce⟩)
        · exact Or.inr ⟨q, hq, e, he, hce⟩

theorem mem_otherUsersItems (all : List (String × List Event))
    (target : String) (v : Nat) :
    v ∈ otherUsersItems all target ↔
      ∃ p ∈ all, p.1 ≠ target ∧ ∃ e ∈ p.2, contentKey e = some v := by
  unfold otherUsersItems
  rw [mem_users_foldl_addKeys]
  simp only [List.not_mem_nil, false_or, List.mem_filter, decide_eq_true_eq]
  constructor
  · rintro ⟨p, ⟨hp, hne⟩, e, he, hce⟩
    exact ⟨p, hp, hne, e, he, hce⟩
  · rintro ⟨p, hp, hne, e, he, hce⟩
    exact ⟨p, ⟨hp, hne⟩, e, he, hce⟩

theorem lookup_append_single {β : Type} (l : List (Nat × β)) (j : Nat)
    (v : β) (k : Nat) :
    (l ++ [(j, v)]).lookup k =
      match l.lookup k with
      | some w => some w
      | none => if k = j then some v else none := by
  induction l with
  | nil =>
      by_cases h : k = j
      · subst h
        simp [List.lookup]
      · have hb : (k == j) = false := beq_eq_false_iff_ne.mpr h
        simp [List.lookup, hb, h]
  | cons p rest ih =>
      obtain ⟨a, b⟩ := p
      by_cases h : k = a
      · have hb : (k == a) = true := beq_iff_eq.mpr h
        simp [List.lookup_cons, hb]
      · have hb : (k == a) = false := beq_eq_false_iff_ne.mpr h
        simp [List.lookup_cons, hb, ih]

/-- The detail dict stores exactly the keys collected so far. -/
theorem addKeys_detail_correspondence (events : List Event) :
    ∀ (acc : List Nat) (accd : List (Nat × ItemDetail)),
      (∀ k, k ∈ acc ↔ (accd.lookup k).isSome) →
      ∀ k, k ∈ addKeys acc events ↔
        ((events.foldl detailStep accd).lookup k).isSome := by
  induction events with
  | nil => exact fun acc accd h k => h k
  | cons e es ih =>
      intro acc accd h k
      rw [show addKeys acc (e :: es) = addKeys (keyStep acc e) es from rfl,
        List.foldl_cons]
      refine ih _ _ ?_ k
      intro v
      cases hk : contentKey e with
      | none => simpa [keyStep, detailStep, hk] using h v
      | some j =>
          rw [show keyStep acc e = insertKey acc j from by simp [keyStep, hk],
            mem_insertKey,
            show detailStep accd e =
              (if (accd.lookup j).isSome then accd
               else accd ++ [(j, ⟨pyOrStr e.grandparent_title e.title,
                 e.media_type⟩)]) from by simp [detailStep, hk]]
          by_cases hj : (accd.lookup j).isSome
          · rw [if_pos hj, h v]
            constructor
            · rintro (hv | rfl)
              · exact hv
              · exact hj
            · exact Or.inl
          · rw [if_neg hj, h v, lookup_append_single]
            cases hl : accd.lookup v with
            | some w => simp [hl]
            | none =>
                simp only [hl, Option.isSome_none, Bool.false_eq_true,
                  false_or]
                by_cases hv : v = j <;> simp [hv]

theorem length_filterMap_of_isSome {α β : Type} (f : α → Option β) :
    ∀ l : List α, (∀ a ∈ l, (f a).isSome) →
      (l.filterMap f).length = l.length := by
  intro l
  induction l with
  | nil => intro; rfl
  | cons a as ih =>
      intro h
      have ha := h a (List.mem_cons_self a as)
      cases hf : f a with
      | none => rw [hf] at ha; cases ha
      | some b =>
          rw [List.filterMap_cons, hf]
          simp only [List.length_cons]
          rw [ih (fun x hx => h x (List.mem_cons_of_mem a hx))]

/-- C5: the unique-content computation returns at most 10 items, reports
the full count of the target's unique keys, a key is unique exactly when
it comes from the target's events and from no other user's events, a
target with no events gets an empty result, and the spec's A/B example
yields unique item 1 with count 1. -/
theorem c5_unique_content :
    (∀ all target,
      (find_unique_content all target).unique_items.length ≤ 10) ∧
    (∀ all target, target ∈ all.map Prod.fst →
      (find_unique_content all target).count =
        some (uniqueKeys all target).length) ∧
    (∀ all target k, k ∈ uniqueKeys all target ↔
      ((∃ e ∈ targetHistory all target, contentKey e = some k) ∧
        ∀ p ∈ all, p.1 ≠ target → ∀ e ∈ p.2, contentKey e ≠ some k)) ∧
    (∀ all target, targetHistory all target = [] →
      (find_unique_content all target).unique_items = []) ∧
    find_unique_content exampleUsersHistory "A" =
      ⟨[⟨some "m1", some "movie"⟩], some 1⟩ := by
  have hcorr : ∀ (evs : List Event) (k : Nat),
      k ∈ addKeys [] evs ↔ ((userItemDetails evs).lookup k).isSome := by
    intro evs k
    exact addKeys_detail_correspondence evs [] [] (by simp [List.lookup]) k
  have hlen : ∀ all target,
      ((uniqueKeys all target).filterMap
        (fun k => (userItemDetails (targetHistory all target)).lookup k)).length =
      (uniqueKeys all target).length := by
    intro all target
    refine length_filterMap_of_isSome _ _ ?_
    intro k hk
    have hk2 : k ∈ addKeys [] (targetHistory all target) :=
      List.mem_of_mem_filter hk
    exact (hcorr _ k).mp hk2
  refine ⟨?_, ?_, ?_, ?_, by decide⟩
  · intro all target
    unfold find_unique_content
    by_cases h : target ∈ all.map Prod.fst
    · simp only [h, not_true_eq_false, ite_false]
      exact List.length_take_le 10 _
    · simp [h]
  · intro all target h
    unfold find_unique_content
    simp only [h, not_true_eq_false, ite_false]
    rw [hlen all target]
  · intro all target k
    unfold uniqueKeys
    rw [List.mem_filter, mem_addKeys]
    simp only [List.not_mem_nil, false_or, decide_eq_true_eq]
    constructor
    · rintro ⟨h1, h2⟩
      refine ⟨h1, ?_⟩
      rw [mem_otherUsersItems] at h2
      intro p hp hne e he hce
      exact h2 ⟨p, hp, hne, e, he, hce⟩
    · rintro ⟨h1, h2⟩
      refine ⟨h1, ?_⟩
      rw [mem_otherUsersItems]
      rintro ⟨p, hp, hne, e, he, hce⟩
      exact h2 p hp hne e he hce
  · intro all target h
    unfold find_unique_content
    by_cases hm : target ∈ all.map Prod.fst
    · simp only [hm, not_true_eq_false, ite_false]
      rw [show uniqueKeys all target = [] from by
        unfold uniqueKeys
        rw [h]
        rfl]
      rfl
    · simp [hm]

/-- C5 witness: the A/B example discharges the membership hypothesis of
the count clause. -/
theorem c5_unique_content_witness :
    "A" ∈ exampleUsersHistory.map Prod.fst ∧
    (find_unique_content exampleUsersHistory "A").count =
      some (uniqueKeys exampleUsersHistory "A").length :=
  ⟨by decide, c5_unique_content.2.1 exampleUsersHistory "A" (by decide)⟩

/-! ## Claim C10 -/

theorem isCounted_media (e : Event) (h : isCounted e = true) :
    (e.media_type).getD "" = "movie" ∨ (e.media_type).getD "" = "episode" := by
  unfold isCounted at h
  cases hm : e.media_type with
  | none => rw [hm] at h; simp at h
  | some m =>
      rw [hm] at h
      simp only [Bool.and_eq_true] at h
      rcases h with ⟨h1, -⟩
      have hmem : m = "movie" ∨ m = "episode" := by
        have h3 : m ∈ tracked_media := by simpa using h1
        simpa [tracked_media] using h3
      rcases hmem with h2 | h2
      · left; simp [hm, h2]
      · right; simp [hm, h2]

/-- Every entry of an updated stats dict is an old entry or the updated
user paired with the update applied to their old (or zero) stats. -/
theorem mem_updateAssoc (u : String) (f : StatDict → StatDict) :
    ∀ (l : List (String × StatDict)) (p : String × StatDict),
      p ∈ updateAssoc u f l →
        p ∈ l ∨ ∃ s : StatDict, p = (u, f s) ∧ ((u, s) ∈ l ∨ s = {}) := by
  intro l
  induction l with
  | nil =>
      intro p hp
      rcases List.mem_singleton.mp hp with rfl
      exact Or.inr ⟨{}, rfl, Or.inr rfl⟩
  | cons q rest ih =>
      obtain ⟨a, s⟩ := q
      intro p hp
      by_cases h : a = u
      · rw [show updateAssoc u f ((a, s) :: rest) = (a, f s) :: rest from by
          simp [updateAssoc, h]] at hp
        rcases List.mem_cons.mp hp with rfl | hmem
        · refine Or.inr ⟨s, by rw [← h], Or.inl ?_⟩
          rw [← h]
          exact List.mem_cons_self (a, s) rest
        · exact Or.inl (List.mem_cons_of_mem (a, s) hmem)
      · rw [show updateAssoc u f ((a, s) :: rest) = (a, s) :: updateAssoc u f rest from by
          simp [updateAssoc, h]] at hp
        rcases List.mem_cons.mp hp with rfl | hmem
        · exact Or.inl (List.mem_cons_self _ _)
        · rcases ih p hmem with hl | ⟨t, hpt, ht⟩
          · exact Or.inl (List.mem_cons_of_mem (a, s) hl)
          · refine Or.inr ⟨t, hpt, ?_⟩
            rcases ht with hmem2 | rfl
            · exact Or.inl (List.mem_cons_of_mem (a, s) hmem2)
            · exact Or.inr rfl

/-- The balance invariant survives the whole fold. -/
theorem foldl_statStep_balance (events : List Event) :
    ∀ acc, (∀ p ∈ acc, p.2.total = p.2.movie + p.2.episode) →
      ∀ p ∈ events.foldl statStep acc,
        p.2.total = p.2.movie + p.2.episode := by
  induction events with
  | nil => exact fun acc h => h
  | cons e es ih =>
      intro acc h
      rw [List.foldl_cons]
      refine ih _ ?_
      intro p hp
      by_cases hc : isCounted e
      · rw [show statStep acc e = updateAssoc ((e.friendly_name).getD "")
            (updateStat ((e.media_type).getD "") e.play_duration) acc from
          if_pos hc] at hp
        rcases mem_updateAssoc _ _ _ p hp with hmem | ⟨s, rfl, hs⟩
        · exact h p hmem
        · have hsb : s.total = s.movie + s.episode := by
            rcases hs with hmem2 | rfl
            · exact h _ hmem2
            · rfl
          rcases isCounted_media e hc with hm | hm <;>
            simp [updateStat, hm, hsb] <;> ring
      · rw [show statStep acc e = acc from if_neg hc] at hp
        exact h p hp

/-- With non-negative play durations, all accumulated counters stay
non-negative. -/
theorem foldl_statStep_nonneg (events : List Event) :
    ∀ acc, (∀ e ∈ events, 0 ≤ e.play_duration) →
      (∀ p ∈ acc, 0 ≤ p.2.movie ∧ 0 ≤ p.2.episode ∧ 0 ≤ p.2.total) →
      ∀ p ∈ events.foldl statStep acc,
        0 ≤ p.2.movie ∧ 0 ≤ p.2.episode ∧ 0 ≤ p.2.total := by
  induction events with
  | nil => exact fun acc _ h => h
  | cons e es ih =>
      intro acc hd h
      rw [List.foldl_cons]
      refine ih _ (fun x hx => hd x (List.mem_cons_of_mem e hx)) ?_
      intro p hp
      have hde : 0 ≤ e.play_duration := hd e (List.mem_cons_self e es)
      by_cases hc : isCounted e
      · rw [show statStep acc e = updateAssoc ((e.friendly_name).getD "")
            (updateStat ((e.media_type).getD "") e.play_duration) acc from
          if_pos hc] at hp
        rcases mem_updateAssoc _ _ _ p hp with hmem | ⟨s, rfl, hs⟩
        · exact h p hmem
        · have hsn : 0 ≤ s.movie ∧ 0 ≤ s.episode ∧ 0 ≤ s.total := by
            rcases hs with hmem2 | rfl
            · exact h _ hmem2
            · exact ⟨le_rfl, le_rfl, le_rfl⟩
          obtain ⟨h1, h2, h3⟩ := hsn
          refine ⟨?_, ?_, ?_⟩
          · simp only [updateStat]
            split <;> omega
          · simp only [updateStat]
            split <;> omega
          · simp only [updateStat]
            omega
      · rw [show statStep acc e = acc from if_neg hc] at hp
        exact h p hp

/-- Updating user `u` rewrites exactly `u`'s looked-up entry, applying the
update to the previous (or zero) value. -/
theorem lookup_updateAssoc (u : String) (f : StatDict → StatDict) :
    ∀ (l : List (String × StatDict)) (v : String),
      (updateAssoc u f l).lookup v =
        if v = u then some (f ((l.lookup u).getD {})) else l.lookup v := by
  intro l
  induction l with
  | nil =>
      intro v
      by_cases h : v = u
      · have hb : (v == u) = true := beq_iff_eq.mpr h
        simp [updateAssoc, List.lookup, hb, h]
      · have hb : (v == u) = false := beq_eq_false_iff_ne.mpr h
        simp [updateAssoc, List.lookup, hb, h]
  | cons q rest ih =>
      obtain ⟨a, s⟩ := q
      intro v
      by_cases ha : a = u
      · rw [show updateAssoc u f ((a, s) :: rest) = (a, f s) :: rest from by
          simp [updateAssoc, ha]]
        by_cases hv : v = a
        · have hb : (v == a) = true := beq_iff_eq.mpr hv
          have hvu : v = u := hv.trans ha
          have hbu : (u == a) = true := beq_iff_eq.mpr ha.symm
          simp [List.lookup_cons, hb, hvu, hbu]
        · have hb : (v == a) = false := beq_eq_false_iff_ne.mpr hv
          have hvu : ¬ v = u := fun hh => hv (hh.trans ha.symm)
          simp [List.lookup_cons, hb, hvu]
      · rw [show updateAssoc u f ((a, s) :: rest) = (a, s) :: updateAssoc u f rest from by
          simp [updateAssoc, ha]]
        have hua : ¬ u = a := fun hh => ha hh.symm
        have hbu : (u == a) = false := beq_eq_false_iff_ne.mpr hua
        by_cases hv : v = a
        · have hb : (v == a) = true := beq_iff_eq.mpr hv
          have hvu : ¬ v = u := fun hh => hua (hh.symm.trans hv)
          simp [List.lookup_cons, hb, hvu]
        · have hb : (v == a) = false := beq_eq_false_iff_ne.mpr hv
          rw [show List.lookup v ((a, s) :: updateAssoc u f rest) =
              List.lookup v (updateAssoc u f rest) from by
            simp [List.lookup_cons, hb]]
          rw [ih v]
          by_cases hvu : v = u
          · simp [hvu, List.lookup_cons, hbu]
          · simp [hvu, List.lookup_cons, hb]

theorem statLe_refl (a : StatDict) : statLe a a := ⟨le_rfl, le_rfl, le_rfl⟩

theorem statLe_trans {a b c : StatDict} (h1 : statLe a b) (h2 : statLe b c) :
    statLe a c :=
  ⟨le_trans h1.1 h2.1, le_trans h1.2.1 h2.2.1, le_trans h1.2.2 h2.2.2⟩

/-- One folded event never shrinks any user's looked-up stats when its
duration is non-negative. -/
theorem statStep_mono (acc : List (String × StatDict)) (e : Event)
    (u : String) (hd : 0 ≤ e.play_duration) :
    statLe ((acc.lookup u).getD {}) (((statStep acc e).lookup u).getD {}) := by
  by_cases hc : isCounted e
  · rw [show statStep acc e = updateAssoc ((e.friendly_name).getD "")
        (updateStat ((e.media_type).getD "") e.play_duration) acc from
      if_pos hc, lookup_updateAssoc]
    by_cases hu : u = (e.friendly_name).getD ""
    · rw [if_pos hu, hu]
      simp only [Option.getD_some]
      refine ⟨?_, ?_, ?_⟩ <;> simp only [updateStat]
      · split <;> omega
      · split <;> omega
      · omega
    · rw [if_neg hu]
      exact statLe_refl _
  · rw [show statStep acc e = acc from if_neg hc]
    exact statLe_refl _

theorem foldl_statStep_mono (post : List Event) :
    ∀ (acc : List (String × StatDict)) (u : String),
      (∀ e ∈ post, 0 ≤ e.play_duration) →
      statLe ((acc.lookup u).getD {})
        (((post.foldl statStep acc).lookup u).getD {}) := by
  induction post with
  | nil => intro acc u _; exact statLe_refl _
  | cons e es ih =>
      intro acc u hd
      rw [List.foldl_cons]
      exact statLe_trans
        (statStep_mono acc e u (hd e (List.mem_cons_self e es)))
        (ih _ u (fun x hx => hd x (List.mem_cons_of_mem e hx)))

/-- C10: throughout the user-stats fold, every user's accumulated total
equals movie plus episode seconds; when all play durations are
non-negative the three counters are non-negative and folding further
events never decreases any user's counters. -/
theorem c10_user_stats_fold :
    (∀ events, ∀ p ∈ userStats events,
      p.2.total = p.2.movie + p.2.episode) ∧
    (∀ events, (∀ e ∈ events, 0 ≤ e.play_duration) →
      ∀ p ∈ userStats events,
        0 ≤ p.2.movie ∧ 0 ≤ p.2.episode ∧ 0 ≤ p.2.total) ∧
    (∀ pre post u, (∀ e ∈ post, 0 ≤ e.play_duration) →
      statLe (statOf pre u) (statOf (pre ++ post) u)) := by
  refine ⟨?_, ?_, ?_⟩
  · intro events
    exact foldl_statStep_balance events [] (by simp)
  · intro events hd
    exact foldl_statStep_nonneg events [] hd (by simp)
  · intro pre post u hd
    unfold statOf userStats
    rw [List.foldl_append]
    exact foldl_statStep_mono post _ u hd

/-- C10 witness: a single non-negative movie event grows user A's stats
from zero. -/
theorem c10_user_stats_fold_witness :
    (∀ e ∈ [movieEvent "A" 1], (0 : Int) ≤ e.play_duration) ∧
    statLe (statOf [] "A") (statOf ([] ++ [movieEvent "A" 1]) "A") :=
  ⟨by decide,
   c10_user_stats_fold.2.2 [] [movieEvent "A" 1] "A" (by decide)⟩

/-! ## Claim C8 -/

theorem lookupSeconds_bumpAssoc (k : String) (d : Int) :
    ∀ (l : List (String × Int)) (g : String),
      lookupSeconds (bumpAssoc k d l) g =
        if g = k then lookupSeconds l g + d else lookupSeconds l g := by
  intro l
  induction l with
  | nil =>
      intro g
      by_cases h : g = k
      · have hb : (g == k) = true := beq_iff_eq.mpr h
        simp [bumpAssoc, lookupSeconds, List.lookup, hb, h]
      · have hb : (g == k) = false := beq_eq_false_iff_ne.mpr h
        simp [bumpAssoc, lookupSeconds, List.lookup, hb, h]
  | cons q rest ih =>
      obtain ⟨a, s⟩ := q
      intro g
      by_cases ha : a = k
      · rw [show bumpAssoc k d ((a, s) :: rest) = (a, s + d) :: rest from by
          simp [bumpAssoc, ha]]
        by_cases hg : g = a
        · have hb : (g == a) = true := beq_iff_eq.mpr hg
          have hba : (k == a) = true := beq_iff_eq.mpr ha.symm
          simp [lookupSeconds, List.lookup_cons, hb, hba, hg.trans ha]
        · have hb : (g == a) = false := beq_eq_false_iff_ne.mpr hg
          have hgk : ¬ g = k := fun hh => hg (hh.trans ha.symm)
          simp [lookupSeconds, List.lookup_cons, hb, hgk]
      · rw [show bumpAssoc k d ((a, s) :: rest) = (a, s) :: bumpAssoc k d rest from by
          simp [bumpAssoc, ha]]
        by_cases hg : g = a
        · have hb : (g == a) = true := beq_iff_eq.mpr hg
          have hgk : ¬ g = k := fun hh => ha (hg.symm.trans hh)
          simp [lookupSeconds, List.lookup_cons, hb, hgk]
        · have hb : (g == a) = false := beq_eq_false_iff_ne.mpr hg
          rw [show lookupSeconds ((a, s) :: bumpAssoc k d rest) g =
                lookupSeconds (bumpAssoc k d rest) g from by
              simp [lookupSeconds, List.lookup_cons, hb],
            show lookupSeconds ((a, s) :: rest) g =
                lookupSeconds rest g from by
              simp [lookupSeconds, List.lookup_cons, hb]]
          exact ih g

theorem tagStep_foldl_lookup (d : Int) (gs : List String) :
    ∀ (acc : List String × List (String × Int)) (g : String),
      lookupSeconds (gs.foldl (tagStep d) acc).2 g =
        lookupSeconds acc.2 g + d * (gs.count g : Int) := by
  induction gs with
  | nil => intro acc g; simp
  | cons g0 rest ih =>
      intro acc g
      rw [List.foldl_cons, ih,
        show (tagStep d acc g0).2 = bumpAssoc g0 d acc.2 from rfl,
        lookupSeconds_bumpAssoc, List.count_cons]
      by_cases h : g = g0
      · have hb : (g0 == g) = true := beq_iff_eq.mpr h.symm
        simp only [h, ite_true, hb, beq_self_eq_true]
        push_cast
        ring
      · have hb : (g0 == g) = false :=
          beq_eq_false_iff_ne.mpr (fun hh => h hh.symm)
        simp [h, hb]

theorem genreFold_lookup (meta : Nat → Except Unit (List String))
    (history : List Event) :
    ∀ (acc : List String × List (String × Int)) (g : String),
      lookupSeconds (history.foldl (genreStep meta) acc).2 g =
        lookupSeconds acc.2 g + genreSeconds meta history g := by
  induction history with
  | nil => intro acc g; simp [genreSeconds]
  | cons e es ih =>
      intro acc g
      rw [List.foldl_cons, ih,
        show genreStep meta acc e =
          (genresOf meta e).foldl (tagStep e.play_duration) acc from rfl,
        tagStep_foldl_lookup]
      simp only [genreSeconds, List.map_cons, List.sum_cons]
      ring

/-- C8 (counterexample): wrapped_analytics.py line 246 computes
`item.get('rating_key') or item.get('grandparent_rating_key')` — the item
key is preferred.  For an event carrying item key 1 and series key 2, the
metadata lookup is made for key 1 and the credited genre is the item's,
although a series key is present, refuting the claimed series-key
preference. -/
theorem c8_counterexample :
    bothKeysEvent.grandparent_rating_key = some 2 ∧
    genreKeyOf bothKeysEvent = some 1 ∧
    metaTwoGenres 2 = .ok ["SeriesGenre"] ∧
    (analyze_genre_diversity metaTwoGenres [bothKeysEvent]).unique_genres = 1 ∧
    (analyze_genre_diversity metaTwoGenres [bothKeysEvent]).total_genre_tags = 1 ∧
    (analyze_genre_diversity metaTwoGenres [bothKeysEvent]).top_genres.map
        (fun p => (p.1, p.2.1)) = [("ItemGenre", 5)] :=
  ⟨rfl, rfl, rfl, by decide, by decide, by decide⟩

/-- C8 (amended): the genre lookup key prefers the item key — whenever a
truthy `rating_key` is present it is used, the series key only otherwise;
an individual item's metadata failure (or falsy key) contributes nothing
and leaves the rest of the analysis unchanged; and every genre's
accumulated seconds equal the sum over events of the full event duration
times the number of times the event's tag list carries that genre. -/
theorem c8_genre_diversity :
    (∀ (e : Event) (k : Nat), e.rating_key = some k → k ≠ 0 →
      genreKeyOf e = some k) ∧
    (∀ meta (pre post : List Event) (e : Event), genresOf meta e = [] →
      analyze_genre_diversity meta (pre ++ e :: post) =
        analyze_genre_diversity meta (pre ++ post)) ∧
    (∀ meta history g,
      lookupSeconds (genreFold meta history).2 g =
        genreSeconds meta history g) := by
  refine ⟨?_, ?_, ?_⟩
  · intro e k hk hk0
    simp [genreKeyOf, pyOrKey, keyTruthy, hk, hk0]
  · intro meta pre post e hg
    unfold analyze_genre_diversity genreFold
    rw [List.foldl_append, List.foldl_cons, List.foldl_append,
      show genreStep meta (List.foldl (genreStep meta) ([], []) pre) e =
        List.foldl (genreStep meta) ([], []) pre from by
      simp [genreStep, hg]]
  · intro meta history g
    unfold genreFold
    rw [genreFold_lookup]
    simp [lookupSeconds, List.lookup]

/-- C8 witness: the amended key-preference and failure-isolation clauses
applied at concrete inputs. -/
theorem c8_genre_diversity_witness :
    (bothKeysEvent.rating_key = some 1 ∧ (1 : Nat) ≠ 0 ∧
      genreKeyOf bothKeysEvent = some 1) ∧
    (genresOf (fun _ => .error ()) bothKeysEvent = [] ∧
      analyze_genre_diversity (fun _ => .error ())
          ([] ++ bothKeysEvent :: []) =
        analyze_genre_diversity (fun _ => .error ()) ([] ++ [])) :=
  ⟨⟨rfl, by decide, c8_genre_diversity.1 bothKeysEvent 1 rfl (by decide)⟩,
   ⟨rfl, c8_genre_diversity.2.1 (fun _ => .error ()) [] [] bothKeysEvent rfl⟩⟩

/-! ## Claim C7 -/

/-- `itemStep` in terms of the resolved key. -/
theorem itemStep_eq (acc : List (Nat × ItemStat)) (e : Event) :
    itemStep acc e =
      match resolvedKey e with
      | some k => updateItem k (((resolveKT e).2).getD "") e.media_type
          e.play_duration acc
      | none => acc := by
  unfold itemStep resolvedKey
  rcases hr : resolveKT e with ⟨ok, ot⟩
  cases ok with
  | none => cases ot <;> simp
  | some k =>
      cases ot with
      | none => simp
      | some t =>
          by_cases h : k ≠ 0 ∧ t ≠ "" <;> simp [h]

/-- A truthy resolved key implies a present resolved title. -/
theorem resolvedKey_title (e : Event) (k : Nat)
    (h : resolvedKey e = some k) :
    (resolveKT e).2 = some (((resolveKT e).2).getD "") := by
  unfold resolvedKey at h
  rcases hr : resolveKT e with ⟨ok, ot⟩
  rw [hr] at h
  cases ok with
  | none => cases ot <;> simp at h
  | some j =>
      cases ot with
      | none => simp at h
      | some t => simp

theorem lookup_updateItem (k : Nat) (t : String) (ty : Option String)
    (d : Int) :
    ∀ (l : List (Nat × ItemStat)) (v : Nat),
      (((updateItem k t ty d l).lookup v).map ItemStat.duration).getD 0 =
        if v = k then ((l.lookup v).map ItemStat.duration).getD 0 + d
        else ((l.lookup v).map ItemStat.duration).getD 0 := by
  intro l
  induction l with
  | nil =>
      intro v
      by_cases h : v = k
      · have hb : (v == k) = true := beq_iff_eq.mpr h
        simp [updateItem, List.lookup, hb, h]
      · have hb : (v == k) = false := beq_eq_false_iff_ne.mpr h
        simp [updateItem, List.lookup, hb, h]
  | cons q rest ih =>
      obtain ⟨a, s⟩ := q
      intro v
      by_cases ha : a = k
      · rw [show updateItem k t ty d ((a, s) :: rest) =
            (a, ⟨s.duration + d, truncTitle t, k, ty⟩) :: rest from by
          simp [updateItem, ha]]
        by_cases hv : v = a
        · have hb : (v == a) = true := beq_iff_eq.mpr hv
          have hba : (k == a) = true := beq_iff_eq.mpr ha.symm
          simp [List.lookup_cons, hb, hba, hv.trans ha]
        · have hb : (v == a) = false := beq_eq_false_iff_ne.mpr hv
          have hvk : ¬ v = k := fun hh => hv (hh.trans ha.symm)
          simp [List.lookup_cons, hb, hvk]
      · rw [show updateItem k t ty d ((a, s) :: rest) =
            (a, s) :: updateItem k t ty d rest from by
          simp [updateItem, ha]]
        by_cases hv : v = a
        · have hb : (v == a) = true := beq_iff_eq.mpr hv
          have hvk : ¬ v = k := fun hh => ha (hv.symm.trans hh)
          simp [List.lookup_cons, hb, hvk]
        · have hb : (v == a) = false := beq_eq_false_iff_ne.mpr hv
          rw [show List.lookup v ((a, s) :: updateItem k t ty d rest) =
              List.lookup v (updateItem k t ty d rest) from by
            simp [List.lookup_cons, hb]]
          rw [ih v]
          rw [show List.lookup v ((a, s) :: rest) = List.lookup v rest from by
            simp [List.lookup_cons, hb]]

theorem keyedDuration_cons (e : Event) (es : List Event) (k : Nat) :
    keyedDuration (e :: es) k =
      (if resolvedKey e = some k then e.play_duration else 0) +
        keyedDuration es k := by
  unfold keyedDuration
  rw [List.filter_cons]
  by_cases h : resolvedKey e = some k
  · simp [h]
  · simp [h]

theorem itemStats_lookup (history : List Event) :
    ∀ (acc : List (Nat × ItemStat)) (k : Nat),
      (((history.foldl itemStep acc).lookup k).map ItemStat.duration).getD 0 =
        ((acc.lookup k).map ItemStat.duration).getD 0 +
          keyedDuration history k := by
  induction history with
  | nil => intro acc k; simp [keyedDuration]
  | cons e es ih =>
      intro acc k
      rw [List.foldl_cons, ih, keyedDuration_cons, itemStep_eq]
      cases hr : resolvedKey e with
      | none => simp [hr]
      | some j =>
          rw [lookup_updateItem]
          by_cases h : k = j
          · have h2 : resolvedKey e = some k := by rw [hr, h]
            simp [h, h2]
            ring
          · have h2 : ¬ resolvedKey e = some k := by
              rw [hr]
              exact fun hh => h (Option.some_inj.mp hh).symm
            have h3 : ¬ j = k := fun hh => h hh.symm
            simp [h, h2, h3]

theorem updateItem_keys (k : Nat) (t : String) (ty : Option String)
    (d : Int) :
    ∀ l : List (Nat × ItemStat),
      (updateItem k t ty d l).map Prod.fst =
        if k ∈ l.map Prod.fst then l.map Prod.fst
        else l.map Prod.fst ++ [k] := by
  intro l
  induction l with
  | nil => simp [updateItem]
  | cons q rest ih =>
      obtain ⟨a, s⟩ := q
      by_cases h : a = k
      · simp [updateItem, h]
      · have hne : ¬ k = a := fun hh => h hh.symm
        simp only [updateItem, h, ite_false, List.map_cons, List.mem_cons,
          hne, false_or, ih]
        by_cases hm : k ∈ rest.map Prod.fst <;> simp [hm]

theorem itemStats_keys_nodup (history : List Event) :
    ∀ acc : List (Nat × ItemStat), ((acc.map Prod.fst).Nodup) →
      (((history.foldl itemStep acc).map Prod.fst)).Nodup := by
  induction history with
  | nil => exact fun acc h => h
  | cons e es ih =>
      intro acc h
      rw [List.foldl_cons]
      refine ih _ ?_
      rw [itemStep_eq]
      cases hr : resolvedKey e with
      | none => exact h
      | some j =>
          rw [updateItem_keys]
          by_cases hm : j ∈ acc.map Prod.fst
          · simpa [hm] using h
          · simp [hm, List.nodup_append, h]

/-- In an association list with duplicate-free keys, membership determines
the lookup. -/
theorem lookup_of_mem_of_nodup {β : Type} :
    ∀ (l : List (Nat × β)), ((l.map Prod.fst).Nodup) →
      ∀ p ∈ l, l.lookup p.1 = some p.2 := by
  intro l
  induction l with
  | nil => intro _ p hp; exact absurd hp (List.not_mem_nil p)
  | cons q rest ih =>
      intro hnd p hp
      obtain ⟨a, b⟩ := q
      rcases List.mem_cons.mp hp with rfl | hmem
      · simp [List.lookup_cons]
      · have hkey : p.1 ∈ rest.map Prod.fst := List.mem_map_of_mem Prod.fst hmem
        have hane : ¬ p.1 = a := by
          intro hh
          rw [List.map_cons, List.nodup_cons] at hnd
          exact hnd.1 (hh ▸ hkey)
        have hb : (p.1 == a) = false := beq_eq_false_iff_ne.mpr hane
        rw [show List.lookup p.1 ((a, b) :: rest) = List.lookup p.1 rest from by
          simp [List.lookup_cons, hb]]
        exact ih (by
          rw [List.map_cons, List.nodup_cons] at hnd
          exact hnd.2) p hmem

theorem mem_updateItem (k : Nat) (t : String) (ty : Option String) (d : Int) :
    ∀ (l : List (Nat × ItemStat)) (p : Nat × ItemStat),
      p ∈ updateItem k t ty d l →
        p ∈ l ∨ (p.1 = k ∧ p.2.title = truncTitle t ∧
          p.2.rating_key = k ∧ p.2.type = ty) := by
  intro l
  induction l with
  | nil =>
      intro p hp
      rcases List.mem_singleton.mp hp with rfl
      exact Or.inr ⟨rfl, rfl, rfl, rfl⟩
  | cons q rest ih =>
      obtain ⟨a, s⟩ := q
      intro p hp
      by_cases h : a = k
      · rw [show updateItem k t ty d ((a, s) :: rest) =
            (a, ⟨s.duration + d, truncTitle t, k, ty⟩) :: rest from by
          simp [updateItem, h]] at hp
        rcases List.mem_cons.mp hp with rfl | hmem
        · exact Or.inr ⟨h, rfl, rfl, rfl⟩
        · exact Or.inl (List.mem_cons_of_mem (a, s) hmem)
      · rw [show updateItem k t ty d ((a, s) :: rest) =
            (a, s) :: updateItem k t ty d rest from by
          simp [updateItem, h]] at hp
        rcases List.mem_cons.mp hp with rfl | hmem
        · exact Or.inl (List.mem_cons_self _ _)
        · rcases ih p hmem with hl | hr
          · exact Or.inl (List.mem_cons_of_mem (a, s) hl)
          · exact Or.inr hr

/-- Every aggregated entry originates from an event of the history that
resolves to its key; its stored title is the truncation of that event's
resolved title. -/
theorem mem_itemStats (history : List Event) :
    ∀ (acc : List (Nat × ItemStat)) (p : Nat × ItemStat),
      p ∈ history.foldl itemStep acc →
        p ∈ acc ∨ ∃ e ∈ history,
          resolvedKey e = some p.1 ∧
          p.2.title = truncTitle (((resolveKT e).2).getD "") ∧
          p.2.rating_key = p.1 ∧ p.2.type = e.media_type := by
  induction history with
  | nil => intro acc p hp; exact Or.inl hp
  | cons e es ih =>
      intro acc p hp
      rw [List.foldl_cons] at hp
      rcases ih _ p hp with hacc | ⟨x, hx, hrest⟩
      · rw [itemStep_eq] at hacc
        cases hr : resolvedKey e with
        | none => rw [hr] at hacc; exact Or.inl hacc
        | some j =>
            rw [hr] at hacc
            rcases mem_updateItem _ _ _ _ acc p hacc with hl | ⟨h1, h2, h3, h4⟩
            · exact Or.inl hl
            · exact Or.inr ⟨e, List.mem_cons_self e es,
                by rw [hr, h1], by rw [h2], by rw [h3, h1], h4⟩
      · exact Or.inr ⟨x, List.mem_cons_of_mem e hx, hrest⟩

/-- C7 (counterexample): the claim groups tracks by the ITEM key, but
wrapped_analytics.py lines 427-429 use the grandparent (series) key and
title for tracks, exactly as for episodes: a track event carrying item key
5 with title "ItemTitle" and series key 6 with title "SeriesTitle" is
aggregated under key 6 with the series title, not under the claimed item
key 5 with the item title. -/
theorem c7_counterexample :
    trackBothKeysEvent.media_type = some "track" ∧
    trackBothKeysEvent.rating_key = some 5 ∧
    trackBothKeysEvent.title = some "ItemTitle" ∧
    resolveKT trackBothKeysEvent =
      (trackBothKeysEvent.grandparent_rating_key,
        trackBothKeysEvent.grandparent_title) ∧
    (get_top_watched_items (fun _ => "") [trackBothKeysEvent] 5).map
      (fun i => (i.rating_key, i.title)) = [(6, "SeriesTitle")] ∧
    ((6 : Nat), "SeriesTitle") ≠ ((5 : Nat), "ItemTitle") :=
  ⟨rfl, rfl, rfl, rfl, by decide, by decide⟩

/-- C7 (amended): the top-watched aggregation resolves the content key as
the series key and title for episodes AND tracks and the item key and
title for every other media type; the result never exceeds `limit`
entries, is sorted by descending total duration, each entry's display
title is its source event's resolved title truncated to 36 characters
plus an ellipsis exactly when it exceeds 36 characters, and each entry's
duration is the sum of the play durations of all events resolving to its
key. -/
theorem c7_top_watched_items :
    (∀ e : Event, e.media_type = some "episode" ∨ e.media_type = some "track" →
      resolveKT e = (e.grandparent_rating_key, e.grandparent_title)) ∧
    (∀ e : Event,
      ¬ (e.media_type = some "episode" ∨ e.media_type = some "track") →
      resolveKT e = (e.rating_key, e.title)) ∧
    (∀ (thumb : Nat → String) history limit,
      (get_top_watched_items thumb history limit).length ≤ limit) ∧
    (∀ (thumb : Nat → String) history limit,
      (get_top_watched_items thumb history limit).Pairwise
        (fun a b => b.duration ≤ a.duration)) ∧
    (∀ (thumb : Nat → String) history limit item,
      item ∈ get_top_watched_items thumb history limit →
        ∃ e ∈ history, ∃ t, (resolveKT e).2 = some t ∧
          item.title = (if t.length > 36 then t.take 36 ++ "..." else t)) ∧
    (∀ (thumb : Nat → String) history limit item,
      item ∈ get_top_watched_items thumb history limit →
        item.duration = keyedDuration history item.rating_key) := by
  have hmem : ∀ (thumb : Nat → String) history limit item,
      item ∈ get_top_watched_items thumb history limit →
        ∃ p ∈ itemStats history,
          item.title = p.2.title ∧ item.rating_key = p.2.rating_key ∧
          item.duration = p.2.duration := by
    intro thumb history limit item hit
    unfold get_top_watched_items at hit
    rcases List.mem_map.mp hit with ⟨p, hp, rfl⟩
    have hp2 : p ∈ sortByDesc (fun p => p.2.duration) (itemStats history) :=
      List.mem_of_mem_take hp
    exact ⟨p, mem_sortByDesc.mp hp2, rfl, rfl, rfl⟩
  refine ⟨?_, ?_, ?_, ?_, ?_, ?_⟩
  · intro e h
    unfold resolveKT
    rw [if_pos h]
  · intro e h
    unfold resolveKT
    rw [if_neg h]
  · intro thumb history limit
    unfold get_top_watched_items
    rw [List.length_map]
    exact List.length_take_le limit _
  · intro thumb history limit
    unfold get_top_watched_items
    rw [List.pairwise_map]
    refine List.Pairwise.imp ?_
      (pairwise_take limit
        (sortByDesc_sorted (fun p : Nat × ItemStat => p.2.duration)
          (itemStats history)))
    intro a b h
    exact h
  · intro thumb history limit item hit
    obtain ⟨p, hp, ht, -, -⟩ := hmem thumb history limit item hit
    rcases mem_itemStats history [] p hp with habs | ⟨e, he, hk, htt, -, -⟩
    · exact absurd habs (List.not_mem_nil p)
    · refine ⟨e, he, ((resolveKT e).2).getD "", resolvedKey_title e p.1 hk, ?_⟩
      rw [ht, htt]
      rfl
  · intro thumb history limit item hit
    obtain ⟨p, hp, -, hrk, hd⟩ := hmem thumb history limit item hit
    have hnd : ((itemStats history).map Prod.fst).Nodup :=
      itemStats_keys_nodup history [] (by simp)
    have hlook : (itemStats history).lookup p.1 = some p.2 :=
      lookup_of_mem_of_nodup _ hnd p hp
    have hsum := itemStats_lookup history [] p.1
    rw [show List.foldl itemStep [] history = itemStats history from rfl,
      hlook] at hsum
    have hkey : item.rating_key = p.1 := by
      rcases mem_itemStats history [] p hp with habs | ⟨e, -, -, -, hrk2, -⟩
      · exact absurd habs (List.not_mem_nil p)
      · rw [hrk, hrk2]
    rw [hd, hkey]
    simpa [List.lookup] using hsum

/-- C7 witness: the track grouping rule holds at the concrete track event
and, with a single movie event, the unique produced entry's duration is
the keyed duration of the history. -/
theorem c7_top_watched_items_witness :
    ((trackBothKeysEvent.media_type = some "episode" ∨
        trackBothKeysEvent.media_type = some "track") ∧
      resolveKT trackBothKeysEvent =
        (trackBothKeysEvent.grandparent_rating_key,
          trackBothKeysEvent.grandparent_title)) ∧
    ((get_top_watched_items (fun _ => "") [movieEvent "A" 1] 5).headD default ∈
      get_top_watched_items (fun _ => "") [movieEvent "A" 1] 5) ∧
    ((get_top_watched_items (fun _ => "") [movieEvent "A" 1] 5).headD
        default).duration =
      keyedDuration [movieEvent "A" 1]
        ((get_top_watched_items (fun _ => "") [movieEvent "A" 1] 5).headD
          default).rating_key := by
  have hm : (get_top_watched_items (fun _ => "") [movieEvent "A" 1] 5).headD
      default ∈ get_top_watched_items (fun _ => "") [movieEvent "A" 1] 5 :=
    List.mem_cons_self _ _
  refine ⟨⟨Or.inr rfl, c7_top_watched_items.1 trackBothKeysEvent (Or.inr rfl)⟩,
    hm, c7_top_watched_items.2.2.2.2.2 (fun _ => "") [movieEvent "A" 1] 5 _ hm⟩

/-! ## Claim C9 -/

theorem roundHalfEven_nonneg (q : ℚ) (h : 0 ≤ q) : 0 ≤ roundHalfEven q := by
  unfold roundHalfEven
  have hf : (0 : ℤ) ≤ ⌊q⌋ := Int.le_floor.mpr (by exact_mod_cast h)
  split_ifs <;> omega

theorem roundHalfEven_le (q : ℚ) (B : ℤ) (h : q ≤ (B : ℚ)) :
    roundHalfEven q ≤ B := by
  unfold roundHalfEven
  have hfl : ⌊q⌋ ≤ B := by
    have := Int.floor_le_floor h
    rwa [Int.floor_intCast] at this
  have hflq : (⌊q⌋ : ℚ) ≤ q := Int.floor_le q
  split_ifs with h1 h2 h3
  · exact hfl
  · have hlt : (⌊q⌋ : ℚ) + 1 / 2 < (B : ℚ) := by linarith
    have : (⌊q⌋ : ℚ) < (B : ℚ) := by linarith
    have hzb : ⌊q⌋ < B := by exact_mod_cast this
    omega
  · exact hfl
  · have hge : 1 / 2 ≤ q - ⌊q⌋ := le_of_not_lt h1
    have hlt : (⌊q⌋ : ℚ) < (B : ℚ) := by linarith
    have hzb : ⌊q⌋ < B := by exact_mod_cast hlt
    omega

theorem round1_nonneg (q : ℚ) (h : 0 ≤ q) : 0 ≤ round1 q := by
  unfold round1
  have h10 : 0 ≤ roundHalfEven (q * 10) :=
    roundHalfEven_nonneg _ (by linarith)
  have : (0 : ℚ) ≤ (roundHalfEven (q * 10) : ℚ) := by exact_mod_cast h10
  linarith

theorem round1_le_100 (q : ℚ) (h : q ≤ 100) : round1 q ≤ 100 := by
  unfold round1
  have h10 : roundHalfEven (q * 10) ≤ 1000 :=
    roundHalfEven_le _ 1000 (by push_cast; linarith)
  have hc : (roundHalfEven (q * 10) : ℚ) ≤ 1000 := by exact_mod_cast h10
  linarith

theorem round1_intCast (n : ℤ) : round1 ((n : ℤ) : ℚ) = n := by
  unfold round1
  have hcast : ((n : ℤ) : ℚ) * 10 = ((n * 10 : ℤ) : ℚ) := by push_cast; ring
  rw [hcast, show roundHalfEven ((n * 10 : ℤ) : ℚ) = n * 10 from by
    unfold roundHalfEven
    rw [Int.floor_intCast]
    simp]
  push_cast
  ring

theorem round1_zero : round1 0 = 0 := by
  have := round1_intCast 0
  simpa using this

theorem sum_split (l : List Int) (n : Nat) :
    l.sum = (l.take n).sum + (l.drop n).sum := by
  conv_lhs => rw [← List.take_append_drop n l]
  rw [List.sum_append]

theorem addSeriesData_nonneg :
    ∀ (ts vs : List Int), (∀ t ∈ ts, 0 ≤ t) → (∀ v ∈ vs, 0 ≤ v) →
      ∀ x ∈ addSeriesData ts vs, 0 ≤ x := by
  intro ts
  induction ts with
  | nil => intro vs _ _ x hx; simp [addSeriesData] at hx
  | cons t ts ih =>
      intro vs ht hv x hx
      cases vs with
      | nil => exact ht x hx
      | cons v vs =>
          rw [show addSeriesData (t :: ts) (v :: vs) =
              (t + v) :: addSeriesData ts vs from rfl] at hx
          rcases List.mem_cons.mp hx with rfl | hx2
          · have h1 := ht t (List.mem_cons_self t ts)
            have h2 := hv v (List.mem_cons_self v vs)
            omega
          · exact ih vs (fun y hy => ht y (List.mem_cons_of_mem t hy))
              (fun y hy => hv y (List.mem_cons_of_mem v hy)) x hx2

theorem addSeriesData_length :
    ∀ (ts vs : List Int), (addSeriesData ts vs).length = ts.length := by
  intro ts
  induction ts with
  | nil => intro vs; cases vs <;> rfl
  | cons t ts ih =>
      intro vs
      cases vs with
      | nil => rfl
      | cons v vs => simp [addSeriesData, ih]

theorem hourlyTotals_spec (series_data : List (List Int)) :
    ∀ (acc : List Int), (∀ t ∈ acc, 0 ≤ t) →
      (∀ s ∈ series_data, ∀ v ∈ s, 0 ≤ v) →
      (∀ x ∈ series_data.foldl addSeriesData acc, 0 ≤ x) ∧
        (series_data.foldl addSeriesData acc).length = acc.length := by
  induction series_data with
  | nil => exact fun acc hacc _ => ⟨hacc, rfl⟩
  | cons s ss ih =>
      intro acc hacc hs
      rw [List.foldl_cons]
      have hstep : ∀ x ∈ addSeriesData acc s, 0 ≤ x :=
        addSeriesData_nonneg acc s hacc (hs s (List.mem_cons_self s ss))
      obtain ⟨h1, h2⟩ := ih (addSeriesData acc s) hstep
        (fun y hy => hs y (List.mem_cons_of_mem s hy))
      exact ⟨h1, h2.trans (addSeriesData_length acc s)⟩

theorem sum_four_bands (l : List Int) (hlen : l.length = 24) :
    l.sum = (l.take 6).sum + ((l.drop 6).take 6).sum +
      ((l.drop 12).take 6).sum + ((l.drop 18).take 6).sum := by
  have h1 := sum_split l 6
  have h2 := sum_split (l.drop 6) 6
  have h3 := sum_split (l.drop 12) 6
  have e1 : (l.drop 6).drop 6 = l.drop 12 := by rw [List.drop_drop]
  have e2 : (l.drop 12).drop 6 = l.drop 18 := by rw [List.drop_drop]
  have e3 : (l.drop 18).take 6 = l.drop 18 :=
    List.take_of_length_le (by simp [hlen])
  rw [e1] at h2
  rw [e2] at h3
  rw [e3]
  omega

theorem pct_bounds (num den : Int) (hn : 0 ≤ num) (hle : num ≤ den)
    (hden : 0 < den) :
    0 ≤ (num : ℚ) / (den : ℚ) * 100 ∧ (num : ℚ) / (den : ℚ) * 100 ≤ 100 := by
  have hnq : (0 : ℚ) ≤ (num : ℚ) := by exact_mod_cast hn
  have hdq : (0 : ℚ) < (den : ℚ) := by exact_mod_cast hden
  have hleq : (num : ℚ) ≤ (den : ℚ) := by exact_mod_cast hle
  constructor
  · have := div_nonneg hnq (le_of_lt hdq)
    linarith
  · have hdiv : (num : ℚ) / (den : ℚ) ≤ 1 := (div_le_one hdq).mpr hleq
    linarith

theorem guarded_pct_bounds (num den : Int) (hn : 0 ≤ num) (hle : num ≤ den) :
    0 ≤ (if 0 < den then (num : ℚ) / (den : ℚ) * 100 else 0) ∧
    (if 0 < den then (num : ℚ) / (den : ℚ) * 100 else 0) ≤ 100 := by
  by_cases h : 0 < den
  · rw [if_pos h]
    exact pct_bounds num den hn hle h
  · rw [if_neg h]
    norm_num

theorem guarded_round_pct_bounds (num den : Int) (hn : 0 ≤ num)
    (hle : num ≤ den) :
    0 ≤ (if 0 < den then round1 ((num : ℚ) / (den : ℚ) * 100) else 0) ∧
    (if 0 < den then round1 ((num : ℚ) / (den : ℚ) * 100) else 0) ≤ 100 := by
  by_cases h : 0 < den
  · rw [if_pos h]
    obtain ⟨h1, h2⟩ := pct_bounds num den hn hle h
    exact ⟨round1_nonneg _ h1, round1_le_100 _ h2⟩
  · rw [if_neg h]
    norm_num

theorem bumpAssoc_values_nonneg (k : String) (d : Int) (hd : 0 ≤ d) :
    ∀ l : List (String × Int), (∀ p ∈ l, 0 ≤ p.2) →
      ∀ p ∈ bumpAssoc k d l, 0 ≤ p.2 := by
  intro l
  induction l with
  | nil =>
      intro _ p hp
      rcases List.mem_singleton.mp hp with rfl
      exact hd
  | cons q rest ih =>
      obtain ⟨a, s⟩ := q
      intro hl p hp
      by_cases h : a = k
      · rw [show bumpAssoc k d ((a, s) :: rest) = (a, s + d) :: rest from by
          simp [bumpAssoc, h]] at hp
        rcases List.mem_cons.mp hp with rfl | hmem
        · have := hl (a, s) (List.mem_cons_self _ _)
          simp only at this ⊢
          omega
        · exact hl p (List.mem_cons_of_mem _ hmem)
      · rw [show bumpAssoc k d ((a, s) :: rest) =
            (a, s) :: bumpAssoc k d rest from by simp [bumpAssoc, h]] at hp
        rcases List.mem_cons.mp hp with rfl | hmem
        · exact hl (a, s) (List.mem_cons_self _ _)
        · exact ih (fun x hx => hl x (List.mem_cons_of_mem _ hx)) p hmem

theorem getD_zero_nonneg (data : List Int) (h : ∀ v ∈ data, 0 ≤ v)
    (i : Nat) : 0 ≤ data.getD i 0 := by
  rw [List.getD_eq_getElem?_getD]
  cases hv : data[i]? with
  | none => simp
  | some v => simpa using h v (List.getElem?_mem hv)

theorem addPlatformSeries_values_nonneg (data : List Int)
    (hdata : ∀ v ∈ data, 0 ≤ v) :
    ∀ (cats : List String) (i : Nat) (acc : List (String × Int)),
      (∀ p ∈ acc, 0 ≤ p.2) →
      ∀ p ∈ addPlatformSeries data i cats acc, 0 ≤ p.2 := by
  intro cats
  induction cats with
  | nil => intro i acc hacc p hp; exact hacc p hp
  | cons c cs ih =>
      intro i acc hacc p hp
      rw [show addPlatformSeries data i (c :: cs) acc =
          addPlatformSeries data (i + 1) cs
            (if i < data.length then bumpAssoc c (data.getD i 0) acc
             else acc) from rfl] at hp
      refine ih (i + 1) _ ?_ p hp
      by_cases hi : i < data.length
      · rw [if_pos hi]
        exact bumpAssoc_values_nonneg c _ (getD_zero_nonneg data hdata i)
          acc hacc
      · rwa [if_neg hi]

theorem platformTotals_values_nonneg (cats : List String)
    (series_data : List (List Int))
    (h : ∀ s ∈ series_data, ∀ v ∈ s, 0 ≤ v) :
    ∀ p ∈ platformTotals cats series_data, 0 ≤ p.2 := by
  unfold platformTotals
  have hgen : ∀ (sd : List (List Int)) (acc : List (String × Int)),
      (∀ s ∈ sd, ∀ v ∈ s, 0 ≤ v) → (∀ p ∈ acc, 0 ≤ p.2) →
      ∀ p ∈ sd.foldl (fun acc data => addPlatformSeries data 0 cats acc) acc,
        0 ≤ p.2 := by
    intro sd
    induction sd with
    | nil => intro acc _ hacc p hp; exact hacc p hp
    | cons s ss ih =>
        intro acc hsd hacc p hp
        rw [List.foldl_cons] at hp
        exact ih _ (fun y hy => hsd y (List.mem_cons_of_mem s hy))
          (addPlatformSeries_values_nonneg s
            (hsd s (List.mem_cons_self s ss)) cats 0 acc hacc) p hp
  exact hgen series_data [] h (by simp)

/-- Every coverage entry originates from a library whose size lookup
succeeded, and carries the guarded, rounded percentage. -/
theorem mem_library_coverage (sizes : Nat → Except Unit Nat)
    (history : List Event) :
    ∀ (libs : List Library) (c : CoverageEntry),
      c ∈ (calculate_library_coverage libs sizes history).libraries →
        ∃ lib ∈ libs, ∃ total, sizes lib.section_id = .ok total ∧
          c = ⟨lib.section_name, lib.section_type,
            watchedCount lib.section_type history, total,
            round1 (if 0 < total then
              ((watchedCount lib.section_type history : ℚ)) / total * 100
            else 0)⟩ := by
  intro libs
  induction libs with
  | nil => intro c hc; simp [calculate_library_coverage] at hc
  | cons lib rest ih =>
      intro c hc
      unfold calculate_library_coverage at hc ih
      rw [List.foldr_cons] at hc
      cases hs : sizes lib.section_id with
      | error err =>
          rw [hs] at hc
          obtain ⟨l2, hl2, total, ht, hceq⟩ := ih c hc
          exact ⟨l2, List.mem_cons_of_mem lib hl2, total, ht, hceq⟩
      | ok total =>
          rw [hs] at hc
          rcases List.mem_cons.mp hc with rfl | hmem
          · exact ⟨lib, List.mem_cons_self lib rest, total, hs, rfl⟩
          · obtain ⟨l2, hl2, total2, ht, hceq⟩ := ih c hmem
            exact ⟨l2, List.mem_cons_of_mem lib hl2, total2, ht, hceq⟩

/-- C9 (counterexample): library coverage counts every distinct watched
item of the matching media type, without restricting it to the section, so
with two distinct watched movies and a reported library size of 1 the
percentage is 200 — outside [0,100]. -/
theorem c9_counterexample :
    (calculate_library_coverage [smallMovieLibrary] (fun _ => Except.ok 1)
        [movieEvent "A" 7, movieEvent "A" 8]).libraries.map
      (fun c => (c.name, c.watched, c.total)) = [("Movies", 2, 1)] ∧
    (calculate_library_coverage [smallMovieLibrary] (fun _ => Except.ok 1)
        [movieEvent "A" 7, movieEvent "A" 8]).libraries.map
      CoverageEntry.percentage = [200] ∧
    (100 : ℚ) < 200 := by
  refine ⟨by decide, ?_, by norm_num⟩
  have hw : watchedCount "movie" [movieEvent "A" 7, movieEvent "A" 8] = 2 :=
    by decide
  have hshape : (calculate_library_coverage [smallMovieLibrary]
      (fun _ => Except.ok 1) [movieEvent "A" 7, movieEvent "A" 8]).libraries.map
      CoverageEntry.percentage =
      [round1 (if 0 < (1 : Nat) then
        ((watchedCount "movie" [movieEvent "A" 7, movieEvent "A" 8] : ℚ)) /
          ((1 : Nat) : ℚ) * 100 else 0)] := rfl
  rw [hshape, hw, if_pos (by norm_num)]
  have hval : ((2 : Nat) : ℚ) / ((1 : Nat) : ℚ) * 100 = ((200 : ℤ) : ℚ) := by
    norm_num
  rw [hval, round1_intCast]
  norm_num

/-- C9 (amended): peak-hour band percentages always lie in [0,100] and are
exactly 0 when the hourly total is 0; platform percentages always lie in
[0,100] and are exactly 0 when the platform grand total is 0; library
coverage percentages are non-negative and exactly 0 when the reported
library size is 0 (never an error), but they are not bounded by 100 — the
distinct-watched count is not restricted to the library, see the
counterexample. -/
theorem c9_percentage_guards :
    (∀ series_data, (∀ s ∈ series_data, ∀ v ∈ s, 0 ≤ v) →
      ((0 ≤ (get_peak_watching_hours series_data).morning.percentage ∧
        (get_peak_watching_hours series_data).morning.percentage ≤ 100) ∧
       (0 ≤ (get_peak_watching_hours series_data).afternoon.percentage ∧
        (get_peak_watching_hours series_data).afternoon.percentage ≤ 100) ∧
       (0 ≤ (get_peak_watching_hours series_data).evening.percentage ∧
        (get_peak_watching_hours series_data).evening.percentage ≤ 100) ∧
       (0 ≤ (get_peak_watching_hours series_data).night.percentage ∧
        (get_peak_watching_hours series_data).night.percentage ≤ 100)) ∧
      ((hourlyTotals series_data).sum = 0 →
        (get_peak_watching_hours series_data).morning.percentage = 0 ∧
        (get_peak_watching_hours series_data).afternoon.percentage = 0 ∧
        (get_peak_watching_hours series_data).evening.percentage = 0 ∧
        (get_peak_watching_hours series_data).night.percentage = 0)) ∧
    (∀ cats series_data, (∀ s ∈ series_data, ∀ v ∈ s, 0 ≤ v) →
      ∀ p ∈ (get_platform_breakdown cats series_data).platforms,
        (0 ≤ p.percentage ∧ p.percentage ≤ 100) ∧
        (((platformTotals cats series_data).map Prod.snd).sum = 0 →
          p.percentage = 0)) ∧
    (∀ libs (sizes : Nat → Except Unit Nat) history,
      ∀ c ∈ (calculate_library_coverage libs sizes history).libraries,
        0 ≤ c.percentage ∧ (c.total = 0 → c.percentage = 0)) := by
  refine ⟨?_, ?_, ?_⟩
  · intro sd h
    obtain ⟨hnn, hlen0⟩ := hourlyTotals_spec sd (List.replicate 24 0)
      (by simp) h
    have hlen : (hourlyTotals sd).length = 24 := by simpa using hlen0
    have hpart := sum_four_bands (hourlyTotals sd) hlen
    have hnight : 0 ≤ ((hourlyTotals sd).take 6).sum :=
      List.sum_nonneg (fun x hx => hnn x (List.mem_of_mem_take hx))
    have hmorn : 0 ≤ (((hourlyTotals sd).drop 6).take 6).sum :=
      List.sum_nonneg (fun x hx => hnn x
        ((List.drop_sublist 6 _).subset (List.mem_of_mem_take hx)))
    have haft : 0 ≤ (((hourlyTotals sd).drop 12).take 6).sum :=
      List.sum_nonneg (fun x hx => hnn x
        ((List.drop_sublist 12 _).subset (List.mem_of_mem_take hx)))
    have heve : 0 ≤ (((hourlyTotals sd).drop 18).take 6).sum :=
      List.sum_nonneg (fun x hx => hnn x
        ((List.drop_sublist 18 _).subset (List.mem_of_mem_take hx)))
    have hmorn_eq : (get_peak_watching_hours sd).morning.percentage =
        (if 0 < (hourlyTotals sd).sum then
          ((((hourlyTotals sd).drop 6).take 6).sum : ℚ) /
            ((hourlyTotals sd).sum : ℚ) * 100 else 0) := rfl
    have haft_eq : (get_peak_watching_hours sd).afternoon.percentage =
        (if 0 < (hourlyTotals sd).sum then
          ((((hourlyTotals sd).drop 12).take 6).sum : ℚ) /
            ((hourlyTotals sd).sum : ℚ) * 100 else 0) := rfl
    have heve_eq : (get_peak_watching_hours sd).evening.percentage =
        (if 0 < (hourlyTotals sd).sum then
          ((((hourlyTotals sd).drop 18).take 6).sum : ℚ) /
            ((hourlyTotals sd).sum : ℚ) * 100 else 0) := rfl
    have hnight_eq : (get_peak_watching_hours sd).night.percentage =
        (if 0 < (hourlyTotals sd).sum then
          (((hourlyTotals sd).take 6).sum : ℚ) /
            ((hourlyTotals sd).sum : ℚ) * 100 else 0) := rfl
    constructor
    · refine ⟨?_, ?_, ?_, ?_⟩
      · rw [hmorn_eq]
        exact guarded_pct_bounds _ _ hmorn (by omega)
      · rw [haft_eq]
        exact guarded_pct_bounds _ _ haft (by omega)
      · rw [heve_eq]
        exact guarded_pct_bounds _ _ heve (by omega)
      · rw [hnight_eq]
        exact guarded_pct_bounds _ _ hnight (by omega)
    · intro h0
      rw [hmorn_eq, haft_eq, heve_eq, hnight_eq, h0]
      norm_num
  · intro cats sd h p hp
    unfold get_platform_breakdown at hp
    rcases List.mem_map.mp hp with ⟨q, hq, rfl⟩
    have hq2 : q ∈ platformTotals cats sd := mem_sortByDesc.mp hq
    have hqn : 0 ≤ q.2 := platformTotals_values_nonneg cats sd h q hq2
    have hall : ∀ x ∈ (platformTotals cats sd).map Prod.snd, 0 ≤ x := by
      intro x hx
      rcases List.mem_map.mp hx with ⟨r, hr, rfl⟩
      exact platformTotals_values_nonneg cats sd h r hr
    have hqle : q.2 ≤ ((platformTotals cats sd).map Prod.snd).sum :=
      List.single_le_sum hall q.2 (List.mem_map_of_mem Prod.snd hq2)
    constructor
    · exact guarded_round_pct_bounds q.2 _ hqn hqle
    · intro h0
      show (if 0 < ((platformTotals cats sd).map Prod.snd).sum then
        round1 ((q.2 : ℚ) /
          (((platformTotals cats sd).map Prod.snd).sum : ℚ) * 100)
        else 0) = 0
      rw [h0]
      norm_num
  · intro libs sizes history c hc
    obtain ⟨lib, -, total, -, rfl⟩ :=
      mem_library_coverage sizes history libs c hc
    constructor
    · refine round1_nonneg _ ?_
      by_cases ht : 0 < total
      · rw [if_pos ht]
        have h1 : (0 : ℚ) ≤
            ((watchedCount lib.section_type history : ℚ)) := by
          exact_mod_cast Nat.zero_le _
        have h2 : (0 : ℚ) ≤ ((total : ℚ)) := by exact_mod_cast Nat.zero_le _
        have := div_nonneg h1 h2
        linarith
      · rw [if_neg ht]
    · intro h0
      simp only at h0
      rw [h0]
      norm_num [round1_zero]

/-- C9 witness: a single series with one morning hour of viewing satisfies
the non-negativity hypothesis and gets an in-range morning percentage. -/
theorem c9_percentage_guards_witness :
    (∀ s ∈ [[(0 : Int), 0, 0, 0, 0, 0, 3600]], ∀ v ∈ s, 0 ≤ v) ∧
    (0 ≤ (get_peak_watching_hours
        [[(0 : Int), 0, 0, 0, 0, 0, 3600]]).morning.percentage ∧
      (get_peak_watching_hours
        [[(0 : Int), 0, 0, 0, 0, 0, 3600]]).morning.percentage ≤ 100) :=
  ⟨by decide,
   ((c9_percentage_guards.1 [[(0 : Int), 0, 0, 0, 0, 0, 3600]]
      (by decide)).1).1⟩

end PlexWrapped
